import Mathlib

/-!
Verification development for the `ipa` IP-address-management tool
(`ipa.py`, `subnet.py`).

The Python sources are shallowly embedded: IP addresses are natural
numbers below 2^32 (the tool is exercised on IPv4; the netaddr library is
modelled at that width), `netaddr.IPNetwork` is a base address plus a
prefix length, `netaddr.IPSet` is its canonical sorted list of maximal
disjoint CIDRs (netaddr's `IPSet` re-compacts after every `add`/`remove`,
and the tool additionally calls `compact()` before reading), and Python
dicts are association lists with replace-in-place-or-append update, which
is Python's dict insertion-order semantics (dict keys are unique in the
modelled program, as the schema and the registries key by distinct names).
Exceptions (`KeyError`, `AssertionError`, `StopIteration`, `IndexError`,
`AddrFormatError`, `SubnettingError`, `RecursionError`) all abort the run,
so fallible operations return `Option`, `none` meaning the run fails.
-/

set_option autoImplicit false

/-! ## Association lists: the model of Python dicts -/

/-- Python dict lookup `d[k]` / `d.get(k)`: first (unique) matching key. -/
def lookupA {κ α : Type} [DecidableEq κ] : List (κ × α) → κ → Option α
  | [], _ => none
  | (k', v) :: t, k => if k' = k then some v else lookupA t k

/-- Python dict update `d[k] = v`: replace the binding in place if the key
is present, otherwise append the new binding at the end (insertion order). -/
def updA {κ α : Type} [DecidableEq κ] : List (κ × α) → κ → α → List (κ × α)
  | [], k, v => [(k, v)]
  | (k', v') :: t, k, v => if k' = k then (k, v) :: t else (k', v') :: updA t k v

/-- Values stored in the free-form `metadata`/`properties` dicts: strings,
integers, and the `(node, entry)` pair the tool stores under `'parent'`. -/
inductive MVal : Type
  | s : String → MVal
  | i : Int → MVal
  | p : String → String → MVal
  deriving DecidableEq, Repr

/-- A Python dict of metadata / properties values. -/
abbrev MDict : Type := List (String × MVal)

/-- `metadata` dict update (specialisation of `updA`). -/
def dUpd (m : MDict) (k : String) (v : MVal) : MDict := updA m k v

/-! ## IPv4 addresses, networks, ranges (the netaddr model) -/

/-- `netaddr.IPNetwork`: a base address and a prefix length (IPv4, 32 bits). -/
structure IPNetwork : Type where
  base : Nat
  plen : Nat
  deriving DecidableEq, Repr

/-- Number of addresses in the network, `IPNetwork.size`. -/
def netSize (n : IPNetwork) : Nat := 2 ^ (32 - n.plen)

/-- The network address (`net[0]`): the base truncated to the prefix
boundary (netaddr indexes and merges networks from their `.cidr` form). -/
def netFirst (n : IPNetwork) : Nat := n.base - n.base % netSize n

/-- The last address of the network (`net[-1]`, the broadcast address). -/
def netLast (n : IPNetwork) : Nat := netFirst n + netSize n - 1

/-- Python indexing `net[i]` with negative-index wraparound;
`none` models `IndexError`. -/
def netIdx (n : IPNetwork) (i : Int) : Option Nat :=
  let sz : Int := netSize n
  let j : Int := if i < 0 then i + sz else i
  if 0 ≤ j ∧ j < sz then some (netFirst n + j.toNat) else none

/-- The netmask of the network (`net.netmask`) as an address value. -/
def netmaskOf (n : IPNetwork) : Nat := 2 ^ 32 - 2 ^ (32 - n.plen)

/-- `netaddr.IPRange`: an inclusive interval of addresses.  Ranges built by
the modelled code always satisfy `first ≤ last` (the constructor checks). -/
structure IPRange : Type where
  first : Nat
  last : Nat
  deriving DecidableEq, Repr

/-- Number of addresses in the range (`IPRange.size`), for `first ≤ last`. -/
def IPRange.size (r : IPRange) : Nat := r.last - r.first + 1

/-- `netaddr.IPRange(start, end)`: fails with `AddrFormatError` when the
lower bound exceeds the upper bound. -/
def mkIPRange (s e : Nat) : Option IPRange :=
  if s ≤ e then some ⟨s, e⟩ else none

/-- Python indexing `r[i]` on an `IPRange`, with negative-index wraparound;
`none` models `IndexError`. -/
def IPRange.idx (r : IPRange) (i : Int) : Option Nat :=
  let sz : Int := r.size
  let j : Int := if i < 0 then i + sz else i
  if 0 ≤ j ∧ j < sz then some (r.first + j.toNat) else none

/-! ## IPSet: canonical CIDR lists

netaddr's `IPSet` keeps a compacted set of CIDRs: disjoint, maximally
merged, sorted by address.  We normalise through address intervals:
convert each CIDR to its interval, sort, merge overlapping/adjacent
intervals, and split every interval back into the minimal list of aligned
CIDRs (exactly the normal form `cidr_merge`/`compact()` produces). -/

/-- The address interval covered by a CIDR. -/
def cidrRange (n : IPNetwork) : Nat × Nat := (netFirst n, netLast n)

/-- Merge a sorted list of intervals: adjacent or overlapping intervals
coalesce.  Fuel-driven (fuel = list length) so that it reduces in the
kernel; one interval is consumed per step. -/
def mergeRangesGo : Nat → List (Nat × Nat) → List (Nat × Nat)
  | 0, l => l
  | _ + 1, [] => []
  | _ + 1, [r] => [r]
  | fuel + 1, r1 :: r2 :: rest =>
    if r2.1 ≤ r1.2 + 1 then mergeRangesGo fuel ((r1.1, max r1.2 r2.2) :: rest)
    else r1 :: mergeRangesGo fuel (r2 :: rest)

def mergeRanges (l : List (Nat × Nat)) : List (Nat × Nat) :=
  mergeRangesGo l.length l

/-- Split the interval `[a, b]` into the minimal ascending list of aligned
CIDR blocks (netaddr's `iprange_to_cidrs`).  At each step the largest
aligned block that starts at `a` and fits inside the interval is emitted.
Fuel-driven; an IPv4 interval needs at most 62 blocks, so fuel 128 is
never exhausted for 32-bit inputs. -/
def rangeToCidrsGo : Nat → Nat → Nat → List IPNetwork
  | 0, _, _ => []
  | fuel + 1, a, b =>
    if b < a then []
    else
      let k := ((List.range 33).filter fun k => a % 2 ^ k = 0 ∧ 2 ^ k ≤ b + 1 - a).foldr max 0
      ⟨a, 32 - k⟩ :: rangeToCidrsGo fuel (a + 2 ^ k) b

def rangeToCidrs (a b : Nat) : List IPNetwork := rangeToCidrsGo 128 a b

/-- Sort intervals by their start address (stable insertion sort, the
behaviour of sorting disjoint CIDRs by address). -/
def sortRanges (l : List (Nat × Nat)) : List (Nat × Nat) :=
  l.insertionSort fun a b => a.1 ≤ b.1

/-- The canonical form of an `IPSet` given as a list of CIDRs: what
`IPSet.compact()` / `iter_cidrs()` expose — sorted, disjoint, maximally
merged CIDRs in ascending address order. -/
def canon (l : List IPNetwork) : List IPNetwork :=
  (mergeRanges (sortRanges (l.map cidrRange))).flatMap fun r => rangeToCidrs r.1 r.2

/-- Disjointness of two CIDRs as address sets. -/
def disjointN (c s : IPNetwork) : Bool :=
  decide (netLast c < netFirst s ∨ netLast s < netFirst c)

/-- `c`'s addresses are all inside `s`. -/
def subsetN (c s : IPNetwork) : Bool :=
  decide (netFirst s ≤ netFirst c ∧ netLast c ≤ netLast s)

/-- Remove the addresses of `s` from the single CIDR `c`, producing the
minimal CIDR split of the remainder (two overlapping CIDRs are always
nested, so we halve `c` until the parts are inside or outside `s`).
Fuel-driven on the prefix length (at most 33 levels for IPv4). -/
def cidrExcludeGo : Nat → IPNetwork → IPNetwork → List IPNetwork
  | 0, _, _ => []
  | fuel + 1, c, s =>
    if disjointN c s then [c]
    else if subsetN c s then []
    else if 32 ≤ c.plen then [c]
    else
      let h := c.plen + 1
      cidrExcludeGo fuel ⟨netFirst c, h⟩ s ++
        cidrExcludeGo fuel ⟨netFirst c + 2 ^ (32 - h), h⟩ s

def cidrExclude (c s : IPNetwork) : List IPNetwork := cidrExcludeGo 34 c s

/-- `IPSet.remove(subnet)`: remove a CIDR's addresses from the set,
splitting containing CIDRs, and re-compact (netaddr compacts on removal). -/
def removeN (l : List IPNetwork) (s : IPNetwork) : List IPNetwork :=
  canon (l.flatMap fun c => cidrExclude c s)

/-- Non-empty `IPSet.intersection` test between two CIDR lists
(used by the `assert not pools.intersection(...)` overlap check). -/
def overlapS (a b : List IPNetwork) : Bool :=
  a.any fun x => b.any fun y => ¬ disjointN x y

/-! ## IPPool (`subnet.py`) -/

/-- `IPPool`: the free set (`self.pool`), the reserved set
(`self.reserved`) and the constructor input CIDR (`self.input`).  Only the
CIDR form of the constructor is modelled — the program under verification
never passes `start_ip`/`end_ip`. -/
structure IPPool : Type where
  pool : List IPNetwork
  reserved : List IPNetwork
  input : IPNetwork
  deriving DecidableEq, Repr

/-- `IPPool(cidr)`: free set = the whole CIDR, reserved set = empty. -/
def IPPool.ofCidr (c : IPNetwork) : IPPool :=
  { pool := canon [c], reserved := [], input := c }

/-- The scanning loop of `IPPool.allocate_subnet`: walk the compacted free
set in ascending order keeping `best_match = (net?, cost)`, starting from
`(None, 999)`; an exact prefix-length match wins immediately (`break`),
and a shorter-prefix net replaces the best match when its cost
`plen - net.plen` is strictly smaller. -/
def findBestLoop (p : Nat) : List IPNetwork → Option IPNetwork × Nat → Option IPNetwork × Nat
  | [], best => best
  | net :: rest, best =>
    if net.plen = p then (some net, 0)
    else if net.plen < p then
      if p - net.plen < best.2 then findBestLoop p rest (some net, p - net.plen)
      else findBestLoop p rest best
    else findBestLoop p rest best

/-- `IPPool.allocate_subnet(prefixlen)`: compact the free set, scan it for
the best-matching net, take the numerically first sub-block of the winner
at the requested prefix length (`next(best.subnet(prefixlen))`), add it to
the reserved set and remove it from the free set.  `none` models
`SubnettingError` (no candidate, or an invalid prefix length > 32, which
netaddr rejects when splitting). -/
def IPPool.allocate_subnet (pl : IPPool) (p : Nat) : Option (IPNetwork × IPPool) :=
  let cs := canon pl.pool
  match (findBestLoop p cs (none, 999)).1 with
  | none => none
  | some best =>
    if 32 < p then none
    else
      let sub : IPNetwork := ⟨netFirst best, p⟩
      some (sub, { pl with reserved := canon (pl.reserved ++ [sub]),
                           pool := removeN cs sub })

/-- `IPPool.allocate_biggest_subnet()`: compact the free set and take
`iter_cidrs()[0]` — the first CIDR in ascending address order — adding it
to the reserved set.  (The code does not remove it from the free set.)
`none` models the `SubnettingError` raised on an empty pool. -/
def IPPool.allocate_biggest_subnet (pl : IPPool) : Option (IPNetwork × IPPool) :=
  match canon pl.pool with
  | [] => none
  | c :: _ =>
    some (c, { pl with pool := canon pl.pool,
                       reserved := canon (pl.reserved ++ [c]) })

/-! ## VlanPool (`ipa.py`) -/

/-- The integer list `list(range(a, b))` (empty when `b ≤ a`). -/
def intRange (a b : Int) : List Int :=
  (List.range (b - a).toNat).map fun i => a + Int.ofNat i

/-- `VlanPool`: bounds `first`/`last` and the iterator `iter(range(first,
last))`, whose state is the cursor of the next value to yield. -/
structure VlanPool : Type where
  first : Int
  last : Int
  cursor : Int
  deriving DecidableEq, Repr

/-- `VlanPool(first, last)`: fresh iterator over `range(first, last)`. -/
def VlanPool.init (f l : Int) : VlanPool := ⟨f, l, f⟩

/-- `VlanPool.alloc()` = `next(self.pool)`: yields the cursor and advances
it; `none` models the `StopIteration` escaping when the pool is spent. -/
def VlanPool.alloc (vp : VlanPool) : Option (Int × VlanPool) :=
  if vp.cursor < vp.last then some (vp.cursor, { vp with cursor := vp.cursor + 1 })
  else none

/-- `VlanPool.unused()`: `u = list(self.pool); return u[0], u[-1] + 1`.
`list(self.pool)` drains the iterator, so the cursor afterwards sits at
`last`; `none` models the `IndexError` from `u[0]` on a spent pool. -/
def VlanPool.unused (vp : VlanPool) : Option ((Int × Int) × VlanPool) :=
  match intRange vp.cursor vp.last with
  | [] => none
  | u0 :: rest =>
    some ((u0, ((u0 :: rest).getLast?).getD 0 + 1), { vp with cursor := vp.last })

/-! ## IpRangeAllocator (`subnet.py`) -/

/-- `IpRangeAllocator`: holds the shrinking usable range `self._range`. -/
structure RangeAlloc : Type where
  range : IPRange
  deriving DecidableEq, Repr

/-- `IpRangeAllocator.__init__(net, start_index, end_index)`: Python
truthiness makes a missing *or zero* index fall back to the defaults 1 and
-2; the usable range is `IPRange(net[start_idx], net[end_idx])`.  `none`
models `IndexError` from indexing or `AddrFormatError` from a reversed
range. -/
def RangeAlloc.init (net : IPNetwork) (start_index end_index : Option Int) :
    Option RangeAlloc := do
  let sidx : Int := match start_index with
    | none => 1
    | some i => if i = 0 then 1 else i
  let eidx : Int := match end_index with
    | none => -2
    | some i => if i = 0 then -2 else i
  let s ← netIdx net sidx
  let e ← netIdx net eidx
  let r ← mkIPRange s e
  pure ⟨r⟩

/-- `IpRangeAllocator.alloc(size, from_the_back)`: asserts
`size < self._range.size` (`none` models the `AssertionError`), then slices
`size` addresses off the back or the front of the remaining range.  The
index arithmetic is Python's, including negative wraparound, so `size = 0`
takes `self._range[size - 1] = self._range[-1]` — the last address. -/
def RangeAlloc.alloc (ra : RangeAlloc) (size : Int) (from_the_back : Bool) :
    Option (IPRange × RangeAlloc) :=
  if size < (ra.range.size : Int) then
    if from_the_back then do
      let s1 ← ra.range.idx ((ra.range.size : Int) - size)
      let r ← mkIPRange s1 ra.range.last
      let e2 ← ra.range.idx ((ra.range.size : Int) - size - 1)
      let rem ← mkIPRange ra.range.first e2
      pure (r, ⟨rem⟩)
    else do
      let e1 ← ra.range.idx (size - 1)
      let r ← mkIPRange ra.range.first e1
      let s2 ← ra.range.idx size
      let rem ← mkIPRange s2 ra.range.last
      pure (r, ⟨rem⟩)
  else none

/-! ## The input schema and the planner state (`ipa.py`)

The YAML schema and the JSON snapshot arrive as nested dicts; the fields
the program reads become structure fields (a missing optional key is an
`Option`).  `prefixlen` keys are called `preflen` here.  Dict iteration
order is declaration order, kept by the association lists. -/

/-- One entry of a node's `schema` list in the input file. -/
structure SEntry : Type where
  name : String
  label : String
  size : Option Int
  preflen : Option Nat
  metadata : Option MDict
  properties : MDict
  deriving DecidableEq, Repr

/-- An entry after `filter_entries` has attached a metadata dict
(old entries get the snapshot's metadata, new ones get `setdefault`). -/
structure FEntry : Type where
  name : String
  label : String
  size : Option Int
  preflen : Option Nat
  metadata : MDict
  properties : MDict
  deriving DecidableEq, Repr

/-- `copy.deepcopy(s)` with the metadata dict replaced/attached. -/
def toF (s : SEntry) (m : MDict) : FEntry :=
  ⟨s.name, s.label, s.size, s.preflen, m, s.properties⟩

/-- One node (NF) declaration under `ipam:` — its label→subnet,
label→vlan-pool and label→parent-ref maps, its schema entries and its
pass-through properties. -/
structure NodeDecl : Type where
  subnet : List (String × String)
  vlan_pool : List (String × String)
  ip_range : List (String × String)
  schema : List SEntry
  properties : MDict
  deriving DecidableEq, Repr

/-- A `vlan_pool:` declaration: `{start, end}` (half-open). -/
structure VlanDecl : Type where
  start : Int
  stop : Int
  deriving DecidableEq, Repr

/-- A `subnet:` declaration: either a direct `cidr`, or `from` + `prefixlen`
(the code checks `'cidr' in v` first, then `'from' in v`). -/
structure SubnetDecl : Type where
  cidr : Option IPNetwork
  from_ : Option String
  preflen : Option Nat
  deriving DecidableEq, Repr

/-- The whole input file. -/
structure Schema : Type where
  subnet : List (String × SubnetDecl)
  vlan_pool : List (String × VlanDecl)
  ipam : List (String × NodeDecl)
  properties : MDict
  deriving DecidableEq, Repr

/-- The `(node, entry-name)` key used by `tmp`, `ipr` and the snapshot. -/
abbrev Key : Type := String × String

/-- One allocation record of the output (`tmp[k]` in `alloc_ips`). -/
structure Record : Type where
  vlan : Option Int
  ip_range : IPRange
  gateway : Option Nat
  cidr : IPNetwork
  preflen : Nat
  netmask : Nat
  properties : MDict
  metadata : MDict
  deriving DecidableEq, Repr

/-- Output per node: pass-through properties and the name→record map. -/
structure NodeOut : Type where
  properties : MDict
  ipa : List (String × Record)
  deriving DecidableEq, Repr

/-- The full result of `alloc_ips`. -/
structure Output : Type where
  ipam : List (String × NodeOut)
  ip_pool : List (String × IPPool)
  vlan_pool : List (String × VlanPool)
  properties : MDict
  deriving DecidableEq, Repr

/-- The prior snapshot consumed by `filter_entries`: the `ipam` mapping of
a previous run's output (`p['ipam']`). -/
abbrev Prior : Type := List (String × NodeOut)

/-- The `ipam` part of an output, fed back as the next run's snapshot. -/
def toPrior (o : Output) : Prior := o.ipam

/-- `p.get('ipam', {}).get(node, {}).get('ipa', {}).get(name)`. -/
def priorLookup (p : Prior) (k : Key) : Option Record :=
  (lookupA p k.1).bind fun nd => lookupA nd.ipa k.2

/-- `convert_vlans`: one `VlanPool` per declaration. -/
def convert_vlans (d : Schema) : List (String × VlanPool) :=
  d.vlan_pool.map fun kv => (kv.1, VlanPool.init kv.2.start kv.2.stop)

/-- The running state of `convert_subnets`: the name→pool registry `acc`
and the running union `pools` of directly declared blocks. -/
abbrev CSAcc : Type := List (String × IPPool) × List IPNetwork

/-- One call of the inner `convert_subnet(k)`.  Faithful to the source,
bug included: when the parent of a derived subnet is not yet materialized
the function recurses to materialize the parent and then returns *without
registering `k` itself*.  The fuel models Python's recursion limit: a
terminating execution needs at most one level per declared subnet, so
running out of fuel coincides with cyclic `from` chains, which in Python
recurse until `RecursionError` (`none`). -/
def convert_subnet (d : Schema) : Nat → String → CSAcc → Option CSAcc
  | 0, _, _ => none
  | fuel + 1, k, st => do
    let v ← lookupA d.subnet k
    match v.cidr with
    | some c =>
      let ipp := IPPool.ofCidr c
      if overlapS st.2 ipp.pool then none
      else some (updA st.1 k ipp, canon (st.2 ++ ipp.pool))
    | none =>
      match v.from_ with
      | some f =>
        match lookupA st.1 f with
        | none => convert_subnet d fuel f st
        | some parent => do
          let pl ← v.preflen
          let (sub, parent') ← IPPool.allocate_subnet parent pl
          some (updA (updA st.1 f parent') k (IPPool.ofCidr sub), st.2)
      | none => some st

/-- `convert_subnets`: run `convert_subnet` over every declared name. -/
def convert_subnets (d : Schema) : Option (List (String × IPPool)) :=
  (d.subnet.foldlM (fun st kv => convert_subnet d (d.subnet.length + 1) kv.1 st)
    (([], []) : CSAcc)).map (·.1)

/-- The mutable state threaded through `alloc_ips`: the record dict `tmp`,
the subnet-pool registry `ipp`, the vlan-pool registry `vp` and the
range-allocator registry `ipr`. -/
structure AllocSt : Type where
  tmp : List (Key × Record)
  ipp : List (String × IPPool)
  vp : List (String × VlanPool)
  ipr : List (Key × RangeAlloc)
  deriving DecidableEq, Repr

/-- A deferred (`'size' in s`) entry queued by the first pass of
`run_for`, with the two parts of its parent reference. -/
structure DItem : Type where
  key : Key
  entry : FEntry
  p0 : String
  p1 : String
  deriving DecidableEq, Repr

/-- The `'type'/'label'` metadata update a direct entry receives
(`s['metadata'].update({'type': kind, 'label': s['label']})`). -/
def mdU2 (m : MDict) (lbl : String) : MDict :=
  dUpd (dUpd m "type" (.s "subnet")) "label" (.s lbl)

/-- The `'type'/'parent'/'label'` metadata update a deferred entry receives. -/
def mdU3 (m : MDict) (pr : Key) (lbl : String) : MDict :=
  dUpd (dUpd (dUpd m "type" (.s "ip_range")) "parent" (.p pr.1 pr.2)) "label" (.s lbl)

/-- The allocation effects of a direct entry, before the record is built:
subnet-pool lookup by label, optional VLAN allocation, subnet carving, the
usable-range and gateway computation (skip network/broadcast only when the
net has at least 4 addresses).  Takes and returns the two registries it
can mutate. -/
def allocDirect (v : NodeDecl) (ipp : List (String × IPPool))
    (vp : List (String × VlanPool)) (lbl : String) (pl : Nat) :
    Option (List (String × IPPool) × List (String × VlanPool) ×
      Option Int × IPNetwork × IPRange × Option Nat) := do
  let sn ← lookupA v.subnet lbl
  let pool ← lookupA ipp sn
  let (vid, vp1) ←
    match lookupA v.vlan_pool lbl with
    | none => some ((none : Option Int), vp)
    | some nm =>
      match lookupA vp nm with
      | none => some ((none : Option Int), vp)
      | some vpl =>
        (VlanPool.alloc vpl).map fun iv => (some iv.1, updA vp nm iv.2)
  let (net, pool') ← IPPool.allocate_subnet pool pl
  let ipp1 := updA ipp sn pool'
  let sidx : Int := if 4 ≤ netSize net then 1 else 0
  let eidx : Int := if 4 ≤ netSize net then -2 else -1
  let a ← netIdx net sidx
  let b ← netIdx net eidx
  let rng ← mkIPRange a b
  let gw ← if 4 ≤ netSize net then (netIdx net (-2)).map some else some none
  pure (ipp1, vp1, vid, net, rng, gw)

/-- Processing of one direct entry: allocate, update the metadata in
place, store the record in `tmp`. -/
def processDirect (v : NodeDecl) (st : AllocSt) (k : Key) (e : FEntry) :
    Option AllocSt := do
  let pl ← e.preflen
  let (ipp1, vp1, vid, net, rng, gw) ← allocDirect v st.ipp st.vp e.label pl
  let md := mdU2 e.metadata e.label
  let rec0 : Record := ⟨vid, rng, gw, net, net.plen, netmaskOf net, e.properties, md⟩
  pure { st with ipp := ipp1, vp := vp1, tmp := updA st.tmp k rec0 }

/-- The allocation effects of a deferred entry: get or lazily create the
parent's `IpRangeAllocator` (Python's `setdefault` evaluates the freshly
constructed default even when the key already exists, so a failing
construction aborts either way), then slice off `|size|` addresses from
the front or — for a negative size — the back.  Takes and returns the
slicer registry. -/
def allocDeferred (ipr : List (Key × RangeAlloc)) (pk : Key) (net : IPNetwork)
    (sz : Int) : Option (List (Key × RangeAlloc) × IPRange × Option Nat) := do
  let eidx : Int := if 4 ≤ netSize net then -3 else -2
  let ra0 ← RangeAlloc.init net none (some eidx)
  let (ra, ipr1) :=
    match lookupA ipr pk with
    | some r => (r, ipr)
    | none => (ra0, updA ipr pk ra0)
  let (size, back) : Int × Bool := if sz < 0 then (-sz, true) else (sz, false)
  let (rng, ra') ← RangeAlloc.alloc ra size back
  let ipr2 := updA ipr1 pk ra'
  let gw ← if 4 ≤ netSize net then (netIdx net (-2)).map some else some none
  pure (ipr2, rng, gw)

/-- Processing of one deferred entry: resolve the parent record (an empty
node part means the entry's own node), allocate from its network, update
the metadata, store the record. -/
def processDeferred (st : AllocSt) (it : DItem) : Option AllocSt := do
  let nk := if it.p0 = "" then it.key.1 else it.p0
  let prec ← lookupA st.tmp (nk, it.p1)
  let net := prec.cidr
  let sz ← it.entry.size
  let (ipr2, rng, gw) ← allocDeferred st.ipr (nk, it.p1) net sz
  let md := mdU3 it.entry.metadata (nk, it.p1) it.entry.label
  let rec0 : Record := ⟨none, rng, gw, net, net.plen, netmaskOf net, it.entry.properties, md⟩
  pure { st with ipr := ipr2, tmp := updA st.tmp it.key rec0 }

/-- Splitting a character list at every occurrence of `'.'`, accumulating
the current piece in reverse. -/
def splitDotGo : List Char → List Char → List String
  | [], acc => [String.mk acc.reverse]
  | c :: rest, acc =>
    if c = '.' then String.mk acc.reverse :: splitDotGo rest []
    else splitDotGo rest (c :: acc)

/-- The split `s.split('.')` performs: pieces between the dots, with empty
pieces kept (so a leading dot yields a leading empty piece). -/
def splitDot (s : String) : List String := splitDotGo s.data []

/-- The first loop of `run_for`: direct entries are processed, sized
entries have their parent reference parsed (`assert len(parent) == 2`) and
are queued in order. -/
def pass1 (d : Schema) : AllocSt → List (Key × FEntry) → List DItem →
    Option (AllocSt × List DItem)
  | st, [], acc => some (st, acc)
  | st, (k, e) :: rest, acc => do
    let v ← lookupA d.ipam k.1
    match e.size with
    | some _ => do
      let pstr ← lookupA v.ip_range e.label
      match splitDot pstr with
      | [p0, p1] => pass1 d st rest (acc ++ [⟨k, e, p0, p1⟩])
      | _ => none
    | none => do
      let st' ← processDirect v st k e
      pass1 d st' rest acc

/-- The deferred loop of `run_for`. -/
def pass2 : AllocSt → List DItem → Option AllocSt
  | st, [] => some st
  | st, it :: rest => do
    let st' ← processDeferred st it
    pass2 st' rest

/-- `run_for(input_)`: the direct pass followed by the deferred pass. -/
def runFor (d : Schema) (st : AllocSt) (l : List (Key × FEntry)) : Option AllocSt := do
  let (st1, dfr) ← pass1 d st l []
  pass2 st1 dfr

/-- The flattened `(node, entry)` walk of the schema, in declaration order
(the nested `for k, v in d['ipam'].items(): for s in v['schema']:`). -/
def schemaEntries (d : Schema) : List (Key × SEntry) :=
  d.ipam.flatMap fun kv => kv.2.schema.map fun s => (((kv.1, s.name) : Key), s)

/-- The classification loop of `filter_entries`: entries found in the
snapshot go to `old` with the snapshot's metadata, the rest go to `new`
with their schema metadata (`{}` when absent), both in declaration order. -/
def fePart (p : Prior) : List (Key × SEntry) → List (Key × FEntry) × List (Key × FEntry)
  | [] => ([], [])
  | ks :: rest =>
    let (o, n) := fePart p rest
    match priorLookup p ks.1 with
    | some pv => ((ks.1, toF ks.2 pv.metadata) :: o, n)
    | none => (o, (ks.1, toF ks.2 (ks.2.metadata.getD [])) :: n)

/-- The `'id'` field of a metadata dict (`x['metadata']['id']`). -/
def getId (m : MDict) : Option Int :=
  match lookupA m "id" with
  | some (.i n) => some n
  | _ => none

/-- The ids of the old entries; `none` models the `KeyError` of
`max([x['metadata']['id'] for x in old.values()] ...)`. -/
def getIds : List (Key × FEntry) → Option (List Int)
  | [] => some []
  | ke :: t => do
    let i ← getId ke.2.metadata
    let r ← getIds t
    pure (i :: r)

/-- `max(ids or [0])`: the maximum of a non-empty list, else 0. -/
def maxIds : List Int → Int
  | [] => 0
  | h :: t => t.foldl max h

/-- The id-assignment loop over the new entries: consecutive ids starting
at `last_id + 1`, `setdefault('metadata', {})['id'] = ...`. -/
def assignIds : Int → List (Key × FEntry) → List (Key × FEntry)
  | _, [] => []
  | base, ke :: t =>
    (ke.1, { ke.2 with metadata := dUpd ke.2.metadata "id" (.i (base + 1)) }) ::
      assignIds (base + 1) t

/-- The sort key relation of `sorted(old.items(), key=...['id'])`. -/
def idLe (a b : Key × FEntry) : Prop :=
  (getId a.2.metadata).getD 0 ≤ (getId b.2.metadata).getD 0

instance : DecidableRel idLe := fun a b =>
  inferInstanceAs (Decidable ((getId a.2.metadata).getD 0 ≤ (getId b.2.metadata).getD 0))

/-- Python's `sorted` is a stable sort by the key function; on a list whose
keys it totally preorders it computes the same list as stable insertion
sort. -/
def sortOld (l : List (Key × FEntry)) : List (Key × FEntry) :=
  l.insertionSort idLe

/-- `filter_entries(d, p)`. -/
def filter_entries (d : Schema) (p : Prior) :
    Option (List (Key × FEntry) × List (Key × FEntry)) :=
  let (o, n) := fePart p (schemaEntries d)
  match getIds o with
  | none => none
  | some ids => some (sortOld o, assignIds (maxIds ids) n)

/-- The output-assembly loop over one node's schema (`res[k]['ipa']`). -/
def mkIpa (tmp : List (Key × Record)) (k : String) :
    List SEntry → Option (List (String × Record))
  | [] => some []
  | s :: rest => do
    let r ← lookupA tmp ((k, s.name) : Key)
    let t ← mkIpa tmp k rest
    pure ((s.name, r) :: t)

/-- The output-assembly loop over the nodes. -/
def mkIpam (tmp : List (Key × Record)) :
    List (String × NodeDecl) → Option (List (String × NodeOut))
  | [] => some []
  | kv :: rest => do
    let ipa ← mkIpa tmp kv.1 kv.2.schema
    let t ← mkIpam tmp rest
    pure ((kv.1, NodeOut.mk kv.2.properties ipa) :: t)

/-- `alloc_ips(d, p)`: build the vlan and subnet pools, reconcile against
the snapshot, replay the old entries, process the new ones, assemble. -/
def alloc_ips (d : Schema) (p : Prior) : Option Output := do
  let vp := convert_vlans d
  let ipp ← convert_subnets d
  let (old, new) ← filter_entries d p
  let st0 : AllocSt := ⟨[], ipp, vp, []⟩
  let st1 ← runFor d st0 old
  let st2 ← runFor d st1 new
  let ipam ← mkIpam st2.tmp d.ipam
  pure ⟨ipam, st2.ipp, st2.vp, d.properties⟩

/-! ## Specification-side definitions

These follow the wording of the specification (for comparison against the
embedded code), plus the metadata bookkeeping used to state the
idempotence argument, and the concrete inputs the theorems evaluate. -/

/-- The cost the allocator assigns to a candidate net. -/
def costOf (p : Nat) (c : IPNetwork) : Nat := p - c.plen

/-- Spec wording of the best-fit selection: the winner is an eligible
candidate (prefix length ≤ requested) of the scanned list such that every
*earlier* eligible candidate has strictly larger cost (first encountered
wins ties) and every later eligible candidate has no smaller cost. -/
def FirstMin (cs : List IPNetwork) (p : Nat) (b : IPNetwork) : Prop :=
  ∃ l1 l2, cs = l1 ++ b :: l2 ∧ b.plen ≤ p ∧
    (∀ c ∈ l1, c.plen ≤ p → costOf p b < costOf p c) ∧
    (∀ c ∈ l2, c.plen ≤ p → costOf p b ≤ costOf p c)

/-- The parent key a deferred entry resolves to: split the label's
`ip_range` reference at `'.'`; an empty node part means the entry's own
node. -/
def resolveParent (d : Schema) (k : Key) (e : FEntry) : Option Key := do
  let v ← lookupA d.ipam k.1
  let pstr ← lookupA v.ip_range e.label
  match splitDot pstr with
  | [p0, p1] => some (((if p0 = "" then k.1 else p0), p1) : Key)
  | _ => none

/-- The metadata dict an entry's allocation record ends up with: the
entry's metadata after the in-place update its branch of `run_for`
performs (`none` when the entry cannot be processed at all). -/
def mdFinal (d : Schema) (k : Key) (e : FEntry) : Option MDict :=
  match e.size with
  | some _ => (resolveParent d k e).map fun pr => mdU3 e.metadata pr e.label
  | none => if e.preflen.isSome then some (mdU2 e.metadata e.label) else none

/-- Two entries that the planner cannot distinguish: equal in every field
`run_for` reads, and whose metadata updates coincide for the branch the
(shared) `size` field selects.  A first-run entry and its second-run
replay (whose metadata is the first run's final record metadata) are
related this way. -/
def EntryRel (e1 e2 : FEntry) : Prop :=
  e2.name = e1.name ∧ e2.label = e1.label ∧ e2.size = e1.size ∧
  e2.preflen = e1.preflen ∧ e2.properties = e1.properties ∧
  (e1.size = none → mdU2 e2.metadata e2.label = mdU2 e1.metadata e1.label) ∧
  (e1.size ≠ none → ∀ pr : Key, mdU3 e2.metadata pr e2.label = mdU3 e1.metadata pr e1.label)

/-- The corresponding relation on queued deferred items. -/
def DRel (i1 i2 : DItem) : Prop :=
  i2.key = i1.key ∧ i2.p0 = i1.p0 ∧ i2.p1 = i1.p1 ∧
  i2.entry.name = i1.entry.name ∧ i2.entry.label = i1.entry.label ∧
  i2.entry.size = i1.entry.size ∧ i2.entry.preflen = i1.entry.preflen ∧
  i2.entry.properties = i1.entry.properties ∧ i2.entry.size.isSome ∧
  (∀ pr : Key, mdU3 i2.entry.metadata pr i2.entry.label =
    mdU3 i1.entry.metadata pr i1.entry.label)

/-- The deferred-queue item a sized entry turns into (the parent
reference parsed from its label's `ip_range` declaration). -/
def dItemOf (d : Schema) (ke : Key × FEntry) : Option DItem := do
  let v ← lookupA d.ipam ke.1.1
  let pstr ← lookupA v.ip_range ke.2.label
  match splitDot pstr with
  | [p0, p1] => some ⟨ke.1, ke.2, p0, p1⟩
  | _ => none

/-- The deferred items the first pass of `run_for` queues, in order. -/
def deferList (d : Schema) (l : List (Key × FEntry)) : List DItem :=
  l.filterMap fun ke => ke.2.size.bind fun _ => dItemOf d ke

/-- The corresponding relation on keyed entry lists. -/
def KRel (a b : Key × FEntry) : Prop := b.1 = a.1 ∧ EntryRel a.2 b.2

/-- Spec wording for the reconciler (C9): the entries found in the
snapshot, in declaration order. -/
def claimOldOf (p : Prior) (ks : Key × SEntry) : Key × FEntry :=
  (ks.1, toF ks.2 (match priorLookup p ks.1 with | some pv => pv.metadata | none => []))

/-- Spec wording for the reconciler (C9): a not-found entry before id
assignment. -/
def claimNewOf (ks : Key × SEntry) : Key × FEntry :=
  (ks.1, toF ks.2 (ks.2.metadata.getD []))

/-- Spec wording for the reconciler (C9): ids `nextId, nextId+1, …`
assigned in declaration order. -/
def claimAssign (nextId : Int) (l : List (Key × FEntry)) : List (Key × FEntry) :=
  l.mapIdx fun i ke =>
    (ke.1, { ke.2 with metadata := dUpd ke.2.metadata "id" (.i (nextId + i)) })

instance : IsTotal (Key × FEntry) idLe :=
  ⟨fun a b => Int.le_total (Option.getD (getId a.2.metadata) 0) (Option.getD (getId b.2.metadata) 0)⟩

instance : IsTrans (Key × FEntry) idLe :=
  ⟨fun _ _ _ h1 h2 => le_trans h1 h2⟩

/-- Concrete reconciler input: node `n` declares `e1` and `e2`; the
snapshot knows `e1` with sequence id 5. -/
def dW9 : Schema :=
  { subnet := [], vlan_pool := [],
    ipam := [("n", { subnet := [], vlan_pool := [], ip_range := [],
                     schema := [⟨"e1", "a", none, some 30, none, []⟩,
                                ⟨"e2", "a", none, some 30, some [("note", .s "x")], []⟩],
                     properties := [] })],
    properties := [] }

/-- The snapshot for `dW9`: `("n", "e1")` was allocated before with id 5. -/
def pW9 : Prior :=
  [("n", { properties := [],
           ipa := [("e1", { vlan := none, ip_range := ⟨0, 0⟩, gateway := none,
                            cidr := ⟨0, 30⟩, preflen := 30, netmask := 0,
                            properties := [], metadata := [("id", .i 5)] })] })]

/-- Concrete schema refuting C3: `b` derives from `c`, which derives from
the direct subnet `a` but is declared after `b`. -/
def dC3 : Schema :=
  { subnet := [("a", ⟨some ⟨167772160, 8⟩, none, none⟩),
               ("b", ⟨none, some "c", some 24⟩),
               ("c", ⟨none, some "a", some 16⟩)],
    vlan_pool := [], ipam := [], properties := [] }

/-- Concrete witness schema: one /24 subnet, one VLAN pool, one node with
a direct /26 entry and a deferred 3-address range carved from it. -/
def dW : Schema :=
  { subnet := [("s1", ⟨some ⟨167772160, 24⟩, none, none⟩)],
    vlan_pool := [("v1", ⟨100, 200⟩)],
    ipam := [("n", { subnet := [("a", "s1")], vlan_pool := [("a", "v1")],
                     ip_range := [("r", ".e1")],
                     schema := [⟨"e1", "a", none, some 26, none, []⟩,
                                ⟨"e2", "r", some 3, none, none, []⟩],
                     properties := [] })],
    properties := [] }

/-- Invariant of the best-match accumulator after scanning the prefix
`l1`: either still `(None, 999)` with no eligible candidate seen, or the
first-encountered minimum of the eligible candidates seen so far, with a
strictly positive cost (an exact match would have ended the scan). -/
def AccInv (p : Nat) (l1 : List IPNetwork) : Option IPNetwork × Nat → Prop
  | (none, c) => c = 999 ∧ ∀ x ∈ l1, ¬ x.plen ≤ p
  | (some b, c) => c = costOf p b ∧ b.plen < p ∧ 0 < c ∧ c ≤ 32 ∧
      ∃ la lb, l1 = la ++ b :: lb ∧
        (∀ x ∈ la, x.plen ≤ p → costOf p b < costOf p x) ∧
        (∀ x ∈ lb, x.plen ≤ p → costOf p b ≤ costOf p x)

/-- What the finished scan means over the full list: no eligible
candidate at all, or a first-encountered-minimum winner. -/
def ResSpec (p : Nat) (full : List IPNetwork) : Option IPNetwork × Nat → Prop
  | (none, _) => ∀ x ∈ full, ¬ x.plen ≤ p
  | (some b, _) => FirstMin full p b

/-- Well-formedness of a schema's keys: node names are distinct and the
`(node, entry)` pairs are distinct (they key dicts in the Python input). -/
def WFKeys (d : Schema) : Prop :=
  (d.ipam.map Prod.fst).Nodup ∧ ((schemaEntries d).map Prod.fst).Nodup

instance (d : Schema) : Decidable (WFKeys d) :=
  inferInstanceAs (Decidable (_ ∧ _))

/-! ## Lemmas about the dict operations -/

theorem lookupA_updA_self {κ α : Type} [DecidableEq κ]
    (l : List (κ × α)) (k : κ) (v : α) : lookupA (updA l k v) k = some v := by
  induction l with
  | nil => simp [updA, lookupA]
  | cons h t ih =>
    by_cases hk : h.1 = k
    · simp [updA, hk, lookupA]
    · simpa [updA, hk, lookupA] using ih

theorem lookupA_updA_ne {κ α : Type} [DecidableEq κ]
    (l : List (κ × α)) (k k' : κ) (v : α) (h : k ≠ k') :
    lookupA (updA l k v) k' = lookupA l k' := by
  induction l with
  | nil => simp [updA, lookupA, h]
  | cons hd t ih =>
    by_cases hk : hd.1 = k
    · simp [updA, hk, lookupA, h, hk ▸ h]
    · simp only [updA, if_neg hk, lookupA]
      by_cases hk' : hd.1 = k' <;> simp [hk', ih]

theorem updA_updA_same {κ α : Type} [DecidableEq κ]
    (l : List (κ × α)) (k : κ) (v w : α) : updA (updA l k v) k w = updA l k w := by
  induction l with
  | nil => simp [updA]
  | cons hd t ih =>
    by_cases hk : hd.1 = k
    · simp [updA, hk]
    · simp [updA, hk, ih]

/-- A key just updated is present afterwards. -/
theorem mem_keys_updA_self {κ α : Type} [DecidableEq κ]
    (l : List (κ × α)) (k : κ) (v : α) : k ∈ (updA l k v).map Prod.fst := by
  induction l with
  | nil => simp [updA]
  | cons hd t ih =>
    by_cases hk : hd.1 = k
    · simp [updA, hk]
    · simp only [updA, if_neg hk, List.map_cons, List.mem_cons]
      exact Or.inr ih

/-- Updates preserve key presence. -/
theorem mem_keys_updA_of_mem {κ α : Type} [DecidableEq κ]
    (l : List (κ × α)) (k k' : κ) (v : α) (h : k ∈ l.map Prod.fst) :
    k ∈ (updA l k' v).map Prod.fst := by
  induction l with
  | nil => simp at h
  | cons hd t ih =>
    rw [List.map_cons] at h
    rcases List.mem_cons.mp h with h1 | h1
    · by_cases hk : hd.1 = k'
      · simp only [updA, if_pos hk, List.map_cons, List.mem_cons]
        exact Or.inl (h1.trans hk)
      · simp only [updA, if_neg hk, List.map_cons, List.mem_cons]
        exact Or.inl h1
    · by_cases hk : hd.1 = k'
      · simp only [updA, if_pos hk, List.map_cons, List.mem_cons]
        exact Or.inr h1
      · simp only [updA, if_neg hk, List.map_cons, List.mem_cons]
        exact Or.inr (ih h1)

/-- Updates of two distinct keys commute when the first key is already
present (both then replace in place, or the second appends either way). -/
theorem updA_updA_comm_left {κ α : Type} [DecidableEq κ]
    (l : List (κ × α)) (k1 k2 : κ) (v1 v2 : α)
    (hmem : k1 ∈ l.map Prod.fst) (hne : k1 ≠ k2) :
    updA (updA l k1 v1) k2 v2 = updA (updA l k2 v2) k1 v1 := by
  induction l with
  | nil => simp at hmem
  | cons hd t ih =>
    by_cases h1 : hd.1 = k1
    · simp [updA, h1, hne, Ne.symm hne]
    · by_cases h2 : hd.1 = k2
      · simp [updA, h1, h2, hne, Ne.symm hne]
      · have hmem' : k1 ∈ t.map Prod.fst := by
          rw [List.map_cons] at hmem
          rcases List.mem_cons.mp hmem with hh | hh
          · exact absurd hh.symm h1
          · exact hh
        simp [updA, h1, h2, ih hmem']

theorem mdU2_mdU2 (m : MDict) (a b : String) : mdU2 (mdU2 m a) b = mdU2 m b := by
  unfold mdU2 dUpd
  rw [← updA_updA_comm_left (updA m "type" (MVal.s "subnet")) "type" "label"
      (MVal.s "subnet") (MVal.s a) (mem_keys_updA_self _ _ _) (by decide),
    updA_updA_same, updA_updA_same]

theorem mdU3_mdU3 (m : MDict) (pr1 pr2 : Key) (a b : String) :
    mdU3 (mdU3 m pr1 a) pr2 b = mdU3 m pr2 b := by
  unfold mdU3 dUpd
  have hT : "type" ∈ (updA m "type" (MVal.s "ip_range")).map Prod.fst :=
    mem_keys_updA_self _ _ _
  have hT2 : "type" ∈
      (updA (updA m "type" (MVal.s "ip_range")) "parent"
        (MVal.p pr1.1 pr1.2)).map Prod.fst :=
    mem_keys_updA_of_mem _ _ _ _ hT
  have hP2 : "parent" ∈
      (updA (updA m "type" (MVal.s "ip_range")) "parent"
        (MVal.p pr1.1 pr1.2)).map Prod.fst :=
    mem_keys_updA_self _ _ _
  rw [← updA_updA_comm_left (updA (updA m "type" (MVal.s "ip_range")) "parent"
        (MVal.p pr1.1 pr1.2)) "type" "label" (MVal.s "ip_range") (MVal.s a)
        hT2 (by decide),
    ← updA_updA_comm_left (updA m "type" (MVal.s "ip_range")) "type" "parent"
        (MVal.s "ip_range") (MVal.p pr1.1 pr1.2) hT (by decide),
    updA_updA_same,
    ← updA_updA_comm_left (updA (updA m "type" (MVal.s "ip_range")) "parent"
        (MVal.p pr1.1 pr1.2)) "parent" "label" (MVal.p pr2.1 pr2.2) (MVal.s a)
        hP2 (by decide),
    updA_updA_same, updA_updA_same]

theorem getId_dUpd_ne (m : MDict) (k : String) (v : MVal) (h : k ≠ "id") :
    getId (dUpd m k v) = getId m := by
  unfold getId dUpd
  rw [lookupA_updA_ne _ _ _ _ h]

theorem getId_mdU2 (m : MDict) (a : String) : getId (mdU2 m a) = getId m := by
  unfold mdU2
  rw [getId_dUpd_ne _ _ _ (by decide), getId_dUpd_ne _ _ _ (by decide)]

theorem getId_mdU3 (m : MDict) (pr : Key) (a : String) :
    getId (mdU3 m pr a) = getId m := by
  unfold mdU3
  rw [getId_dUpd_ne _ _ _ (by decide), getId_dUpd_ne _ _ _ (by decide),
    getId_dUpd_ne _ _ _ (by decide)]

theorem getId_dUpd_id (m : MDict) (x : Int) :
    getId (dUpd m "id" (.i x)) = some x := by
  unfold getId dUpd
  rw [lookupA_updA_self]

/-! ## Claims C2, C6, C3: evaluation of the code at its failing inputs -/

/-- C2: `allocate_biggest_subnet` is claimed to return the single largest
free block and to move it from the free set to the reserved set.  On the
pool with free set `{10.0.0.128/25, 10.0.1.0/24}` (obtained from
`IPPool('10.0.0.0/23')` after `allocate_subnet(25)`) the code instead
returns `10.0.0.128/25` — the first CIDR in ascending *address* order,
which is strictly smaller than the free `10.0.1.0/24` — and leaves the
free set unchanged, so the claimed behaviour (also promised by the
function's own docstring and comment) does not hold. -/
theorem c2_biggest_eval :
    IPPool.allocate_subnet (IPPool.ofCidr ⟨167772160, 23⟩) 25 =
      some (⟨167772160, 25⟩,
        { pool := [⟨167772288, 25⟩, ⟨167772416, 24⟩],
          reserved := [⟨167772160, 25⟩], input := ⟨167772160, 23⟩ }) ∧
    IPPool.allocate_biggest_subnet
        { pool := [⟨167772288, 25⟩, ⟨167772416, 24⟩],
          reserved := [⟨167772160, 25⟩], input := ⟨167772160, 23⟩ } =
      some (⟨167772288, 25⟩,
        { pool := [⟨167772288, 25⟩, ⟨167772416, 24⟩],
          reserved := [⟨167772160, 24⟩], input := ⟨167772160, 23⟩ }) ∧
    netSize ⟨167772288, 25⟩ < netSize ⟨167772416, 24⟩ := by
  refine ⟨by decide, by decide, by decide⟩

/-- C6: within one run all blocks handed out by
`allocate_subnet`/`allocate_biggest_subnet` are claimed pairwise disjoint.
Because `allocate_biggest_subnet` never removes its block from the free
set, on `IPPool('10.0.0.0/24')` a `allocate_biggest_subnet()` followed by
`allocate_subnet(25)` hands out `10.0.0.0/24` and then the overlapping
`10.0.0.0/25`. -/
theorem c6_overlap_eval :
    IPPool.allocate_biggest_subnet (IPPool.ofCidr ⟨167772160, 24⟩) =
      some (⟨167772160, 24⟩,
        { pool := [⟨167772160, 24⟩], reserved := [⟨167772160, 24⟩],
          input := ⟨167772160, 24⟩ }) ∧
    IPPool.allocate_subnet
        { pool := [⟨167772160, 24⟩], reserved := [⟨167772160, 24⟩],
          input := ⟨167772160, 24⟩ } 25 =
      some (⟨167772160, 25⟩,
        { pool := [⟨167772288, 25⟩], reserved := [⟨167772160, 24⟩],
          input := ⟨167772160, 24⟩ }) ∧
    disjointN ⟨167772160, 24⟩ ⟨167772160, 25⟩ = false := by
  refine ⟨by decide, by decide, by decide⟩

/-- C3: the planner is claimed to register a pool for *every* declared
subnet, resolving not-yet-materialized parents recursively.  On `dC3`
(`a` direct, `b` from `c`, `c` from `a`, with `c` declared after `b`)
`convert_subnets` materializes `c` while resolving `b`'s parent but
returns without registering `b`, and then re-processes `c`, allocating a
second block (`10.1.0.0/16`, overwriting the first `10.0.0.0/16` — both
carved out of `a`, whose reserved set ends up as `10.0.0.0/15`).  The
registry therefore lacks `b` entirely. -/
theorem c3_convert_eval :
    (convert_subnets dC3).map (fun acc => acc.map Prod.fst) = some ["a", "c"] ∧
    ((convert_subnets dC3).bind fun acc => lookupA acc "b") = none ∧
    (((convert_subnets dC3).bind fun acc => lookupA acc "c")).map (·.input) =
      some ⟨167837696, 16⟩ ∧
    (((convert_subnets dC3).bind fun acc => lookupA acc "a")).map (·.reserved) =
      some [⟨167772160, 15⟩] := by
  refine ⟨by decide, by decide, by decide, by decide⟩


/-! ## Index arithmetic lemmas for the range slicer -/

theorem IPRange.idx_of_nonneg (r : IPRange) (i : Int) (h0 : 0 ≤ i)
    (h1 : i < (r.size : Int)) : r.idx i = some (r.first + i.toNat) := by
  simp only [IPRange.idx]
  rw [if_neg (show ¬ i < 0 by omega)]
  rw [if_pos ⟨h0, h1⟩]

theorem IPRange.idx_of_neg (r : IPRange) (i : Int) (h0 : i < 0)
    (h1 : 0 ≤ i + (r.size : Int)) :
    r.idx i = some (r.first + (i + (r.size : Int)).toNat) := by
  simp only [IPRange.idx]
  rw [if_pos h0]
  rw [if_pos ⟨h1, by omega⟩]

theorem netIdx_of_nonneg (n : IPNetwork) (i : Int) (h0 : 0 ≤ i)
    (h1 : i < (netSize n : Int)) : netIdx n i = some (netFirst n + i.toNat) := by
  simp only [netIdx]
  rw [if_neg (show ¬ i < 0 by omega)]
  rw [if_pos ⟨h0, h1⟩]

theorem netIdx_of_neg (n : IPNetwork) (i : Int) (h0 : i < 0)
    (h1 : 0 ≤ i + (netSize n : Int)) :
    netIdx n i = some (netFirst n + (i + (netSize n : Int)).toNat) := by
  simp only [netIdx]
  rw [if_pos h0]
  rw [if_pos ⟨h1, by omega⟩]

theorem netIdx_oob_pos (n : IPNetwork) (i : Int) (h0 : 0 ≤ i)
    (h1 : (netSize n : Int) ≤ i) : netIdx n i = none := by
  simp only [netIdx]
  rw [if_neg (show ¬ i < 0 by omega)]
  rw [if_neg (by push_neg; intro; omega)]

/-! ## Claim C10 -/

/-- C10: for any slicer with a non-empty remaining interval,
`alloc(0, fromBack=False)` does not return an empty range: Python's
`self._range[size - 1]` is `self._range[-1]`, so the call returns the
entire remaining interval and leaves the remaining interval unchanged —
every remaining address is reported allocated while none is reserved. -/
theorem c10_alloc_zero (f l : Nat) (h : f ≤ l) :
    RangeAlloc.alloc ⟨⟨f, l⟩⟩ 0 false = some (⟨f, l⟩, ⟨⟨f, l⟩⟩) ∧
    0 < (IPRange.mk f l).size := by
  refine ⟨?_, by simp [IPRange.size]⟩
  have hs : (IPRange.mk f l).size = l - f + 1 := rfl
  simp only [RangeAlloc.alloc]
  rw [if_pos (show (0 : Int) < (((⟨⟨f, l⟩⟩ : RangeAlloc).range.size : Nat) : Int) by
    rw [show (⟨⟨f, l⟩⟩ : RangeAlloc).range = IPRange.mk f l from rfl, hs]; omega)]
  rw [if_neg (show ¬ (false = true) by simp)]
  rw [IPRange.idx_of_neg _ ((0 : Int) - 1) (by omega) (by rw [hs]; omega)]
  simp only [Option.bind_eq_bind, Option.some_bind]
  rw [show (0 - 1 + ((IPRange.mk f l).size : Int)).toNat = l - f by rw [hs]; omega]
  rw [show f + (l - f) = l by omega]
  rw [show mkIPRange f l = some (IPRange.mk f l) by simp [mkIPRange, h]]
  simp only [Option.some_bind]
  rw [IPRange.idx_of_nonneg _ 0 le_rfl (by rw [hs]; omega)]
  simp only [Option.some_bind, Int.toNat_zero, Nat.add_zero]
  rw [show mkIPRange f l = some (IPRange.mk f l) by simp [mkIPRange, h]]
  rfl

/-- Witness for C10 at the interval `[5, 9]`. -/
theorem c10_alloc_zero_witness :
    RangeAlloc.alloc ⟨⟨5, 9⟩⟩ 0 false = some (⟨5, 9⟩, ⟨⟨5, 9⟩⟩) ∧
    0 < (IPRange.mk 5 9).size :=
  c10_alloc_zero 5 9 (by decide)

/-! ## Claim C8 -/

/-- C8 counterexample: the claim says `alloc(size, fromBack=false)` with
`size < remaining.length` returns the *first `size` addresses*.  On the
remaining interval `[10.0.0.1, 10.0.0.10]` with `size = 0` (which is
below the length 10, so per the claim the call must not fail and must
return 0 addresses) the code returns the whole 10-address interval. -/
theorem c8_counterexample :
    RangeAlloc.alloc ⟨⟨167772161, 167772170⟩⟩ 0 false =
      some (⟨167772161, 167772170⟩, ⟨⟨167772161, 167772170⟩⟩) ∧
    (IPRange.mk 167772161 167772170).size = 10 := by
  refine ⟨by decide, by decide⟩

/-- C8 (amended to sizes ≥ 1): `alloc` fails exactly when the size is not
strictly below the remaining length; otherwise it slices `size` addresses
off the chosen end.  The conjunction ends with the two concrete slices of
the claim: `[10.0.0.1, 10.0.0.10]`, `alloc(3)` then `alloc(2, back)`. -/
theorem c8_alloc_spec :
    (∀ f l sz : Nat, f ≤ l → 1 ≤ sz →
      ((l - f + 1 ≤ sz →
        RangeAlloc.alloc ⟨⟨f, l⟩⟩ (sz : Int) true = none ∧
        RangeAlloc.alloc ⟨⟨f, l⟩⟩ (sz : Int) false = none) ∧
      (sz < l - f + 1 →
        RangeAlloc.alloc ⟨⟨f, l⟩⟩ (sz : Int) false =
          some (⟨f, f + sz - 1⟩, ⟨⟨f + sz, l⟩⟩) ∧
        RangeAlloc.alloc ⟨⟨f, l⟩⟩ (sz : Int) true =
          some (⟨l - sz + 1, l⟩, ⟨⟨f, l - sz⟩⟩)))) ∧
    RangeAlloc.alloc ⟨⟨167772161, 167772170⟩⟩ 3 false =
      some (⟨167772161, 167772163⟩, ⟨⟨167772164, 167772170⟩⟩) ∧
    RangeAlloc.alloc ⟨⟨167772164, 167772170⟩⟩ 2 true =
      some (⟨167772169, 167772170⟩, ⟨⟨167772164, 167772168⟩⟩) := by
  refine ⟨?_, by decide, by decide⟩
  intro f l sz hfl hsz
  have hs : (IPRange.mk f l).size = l - f + 1 := rfl
  constructor
  · intro hge
    constructor <;>
    · simp only [RangeAlloc.alloc]
      rw [if_neg (by rw [hs]; omega)]
  · intro hlt
    constructor
    · simp only [RangeAlloc.alloc]
      rw [if_pos (by rw [hs]; omega)]
      rw [if_neg (show ¬ (false = true) by simp)]
      rw [IPRange.idx_of_nonneg _ ((sz : Int) - 1) (by omega) (by rw [hs]; omega)]
      simp only [Option.bind_eq_bind, Option.some_bind]
      rw [show ((sz : Int) - 1).toNat = sz - 1 by omega]
      rw [show mkIPRange f (f + (sz - 1)) = some (IPRange.mk f (f + (sz - 1))) by
        simp [mkIPRange]]
      simp only [Option.some_bind]
      rw [IPRange.idx_of_nonneg _ (sz : Int) (by omega) (by rw [hs]; omega)]
      simp only [Option.some_bind, Int.toNat_natCast]
      rw [show mkIPRange (f + sz) l = some (IPRange.mk (f + sz) l) by
        simp [mkIPRange]; omega]
      simp only [Option.some_bind, pure]
      rw [show f + (sz - 1) = f + sz - 1 by omega]
    · simp only [RangeAlloc.alloc]
      rw [if_pos (by rw [hs]; omega)]
      rw [if_pos trivial]
      rw [IPRange.idx_of_nonneg _ (((IPRange.mk f l).size : Int) - (sz : Int))
        (by rw [hs]; omega) (by rw [hs]; omega)]
      simp only [Option.bind_eq_bind, Option.some_bind]
      rw [show (((IPRange.mk f l).size : Int) - (sz : Int)).toNat = l - sz + 1 - f by
        rw [hs]; omega]
      rw [show f + (l - sz + 1 - f) = l - sz + 1 by omega]
      rw [show mkIPRange (l - sz + 1) ((IPRange.mk f l).last) =
          some (IPRange.mk (l - sz + 1) l) by simp [mkIPRange]; omega]
      simp only [Option.some_bind]
      rw [IPRange.idx_of_nonneg _ (((IPRange.mk f l).size : Int) - (sz : Int) - 1)
        (by rw [hs]; omega) (by rw [hs]; omega)]
      simp only [Option.some_bind]
      rw [show (((IPRange.mk f l).size : Int) - (sz : Int) - 1).toNat = l - sz - f by
        rw [hs]; omega]
      rw [show f + (l - sz - f) = l - sz by omega]
      rw [show mkIPRange ((IPRange.mk f l).first) (l - sz) =
          some (IPRange.mk f (l - sz)) by simp [mkIPRange]; omega]
      rfl

/-- Witness for C8 on the interval `[1, 10]` with size 4. -/
theorem c8_alloc_spec_witness :
    RangeAlloc.alloc ⟨⟨1, 10⟩⟩ ((4 : Nat) : Int) false =
      some (⟨1, 1 + 4 - 1⟩, ⟨⟨1 + 4, 10⟩⟩) ∧
    RangeAlloc.alloc ⟨⟨1, 10⟩⟩ ((4 : Nat) : Int) true =
      some (⟨10 - 4 + 1, 10⟩, ⟨⟨1, 10 - 4⟩⟩) :=
  (c8_alloc_spec.1 1 10 4 (by decide) (by decide)).2 (by decide)

/-! ## Claim C5 -/

/-- C5 counterexample: the claim says that for a network with fewer than
4 addresses the slicer construction succeeds with the whole network as
usable interval.  For the 2-address network `10.0.0.0/31` — with the
planner's own argument `end_index = -2`, and equally with the default
arguments — construction fails: `IPRange(net[1], net[0])` has reversed
bounds. -/
theorem c5_counterexample :
    RangeAlloc.init ⟨167772160, 31⟩ none (some (-2)) = none ∧
    RangeAlloc.init ⟨167772160, 31⟩ none none = none := by
  refine ⟨by decide, by decide⟩

/-- C5 (amended): with the planner's deferred-pass arguments, a network of
at least 4 addresses yields the interval from `net[1]` to `net[-3]`
(excluding the network address and the final two addresses); a network
with fewer than 4 addresses makes construction fail (out-of-bounds index
for /32, reversed bounds for /31) instead of using the whole network. -/
theorem c5_init_spec (base plen : Nat) :
    (4 ≤ netSize ⟨base, plen⟩ →
      RangeAlloc.init ⟨base, plen⟩ none (some (-3)) =
        some ⟨⟨netFirst ⟨base, plen⟩ + 1,
              netFirst ⟨base, plen⟩ + netSize ⟨base, plen⟩ - 3⟩⟩) ∧
    (netSize ⟨base, plen⟩ < 4 →
      RangeAlloc.init ⟨base, plen⟩ none (some (-2)) = none) := by
  constructor
  · intro h4
    simp only [RangeAlloc.init]
    rw [if_neg (by decide)]
    rw [netIdx_of_nonneg _ 1 (by omega) (by omega)]
    simp only [Option.bind_eq_bind, Option.some_bind]
    rw [netIdx_of_neg _ (-3) (by omega) (by omega)]
    simp only [Option.some_bind]
    rw [show ((-3 : Int) + (netSize ⟨base, plen⟩ : Int)).toNat =
        netSize ⟨base, plen⟩ - 3 by omega]
    rw [show mkIPRange (netFirst ⟨base, plen⟩ + (1 : Int).toNat)
        (netFirst ⟨base, plen⟩ + (netSize ⟨base, plen⟩ - 3)) =
        some (IPRange.mk (netFirst ⟨base, plen⟩ + 1)
          (netFirst ⟨base, plen⟩ + netSize ⟨base, plen⟩ - 3)) by
      simp [mkIPRange]
      constructor
      · omega
      · omega]
    rfl
  · intro h4
    have hpow : netSize ⟨base, plen⟩ = 1 ∨ netSize ⟨base, plen⟩ = 2 := by
      have h0 : netSize ⟨base, plen⟩ = 2 ^ (32 - plen) := rfl
      rcases hk : 32 - plen with _ | k
      · rw [h0, hk]
        left
        rfl
      · have h2 : netSize ⟨base, plen⟩ = 2 * 2 ^ k := by
          rw [h0, hk, pow_succ]
          ring
        have hp : 0 < 2 ^ k := Nat.pow_pos (by omega)
        omega
    simp only [RangeAlloc.init]
    rw [if_neg (by decide)]
    rcases hpow with h1 | h2
    · rw [netIdx_oob_pos _ 1 (by omega) (by omega)]
      rfl
    · rw [netIdx_of_nonneg _ 1 (by omega) (by omega)]
      simp only [Option.bind_eq_bind, Option.some_bind]
      rw [netIdx_of_neg _ (-2) (by omega) (by omega)]
      simp only [Option.some_bind]
      rw [show ((-2 : Int) + (netSize ⟨base, plen⟩ : Int)).toNat = 0 by omega]
      rw [show mkIPRange (netFirst ⟨base, plen⟩ + (1 : Int).toNat)
          (netFirst ⟨base, plen⟩ + 0) = none by
        simp [mkIPRange]]
      rfl

/-- Witness for C5 on `10.0.0.0/24`. -/
theorem c5_init_spec_witness :
    RangeAlloc.init ⟨167772160, 24⟩ none (some (-3)) =
      some ⟨⟨netFirst ⟨167772160, 24⟩ + 1,
            netFirst ⟨167772160, 24⟩ + netSize ⟨167772160, 24⟩ - 3⟩⟩ :=
  (c5_init_spec 167772160 24).1 (by decide)

/-! ## Claim C4 -/

theorem intRange_eq_nil (a b : Int) (h : b ≤ a) : intRange a b = [] := by
  simp [intRange, show (b - a).toNat = 0 by omega]

theorem intRange_cons (a b : Int) (h : a < b) :
    ∃ t, intRange a b = a :: t := by
  obtain ⟨m, hm⟩ : ∃ m, (b - a).toNat = m + 1 := ⟨(b - a).toNat - 1, by omega⟩
  refine ⟨((List.range m).map Nat.succ).map fun i => a + Int.ofNat i, ?_⟩
  rw [intRange, hm, List.range_succ_eq_map, List.map_cons]
  simp

theorem intRange_getLast (a b : Int) (h : a < b) :
    (intRange a b).getLast? = some (b - 1) := by
  obtain ⟨m, hm⟩ : ∃ m, (b - a).toNat = m + 1 := ⟨(b - a).toNat - 1, by omega⟩
  rw [intRange, hm, List.range_succ, List.map_append, List.map_singleton,
    List.getLast?_concat]
  simp only [Option.some.injEq, Int.ofNat_eq_natCast]
  omega

/-- C4 counterexample: `unused()` is claimed not to mutate the sequencer,
so that `unused(); alloc()` yields the same id as `alloc()` alone and two
consecutive `unused()` calls agree.  On the fresh pool `VlanPool(1, 3)`,
`unused()` returns `(1, 3)` but drains the iterator (`list(self.pool)`),
after which `alloc()` raises `StopIteration` — whereas `alloc()` alone
returns 1 — and a second `unused()` raises `IndexError`. -/
theorem c4_counterexample :
    VlanPool.unused (VlanPool.init 1 3) = some ((1, 3), ⟨1, 3, 3⟩) ∧
    VlanPool.alloc ⟨1, 3, 3⟩ = none ∧
    VlanPool.alloc (VlanPool.init 1 3) = some (1, ⟨1, 3, 2⟩) ∧
    VlanPool.unused ⟨1, 3, 3⟩ = none := by
  refine ⟨by decide, by decide, by decide, by decide⟩

/-- C4 (amended): `unused()` returns the half-open interval
`[cursor, last)` when it is non-empty, but consumes the iterator: the
sequencer is left exhausted (cursor at `last`), so a later `alloc()` or
`unused()` fails; on an already-exhausted sequencer `unused()` itself
fails. -/
theorem c4_unused_spec (f l c : Int) :
    (c < l → VlanPool.unused ⟨f, l, c⟩ = some ((c, l), ⟨f, l, l⟩)) ∧
    (l ≤ c → VlanPool.unused ⟨f, l, c⟩ = none) := by
  constructor
  · intro h
    obtain ⟨t, ht⟩ := intRange_cons c l h
    have hlast : (c :: t).getLast? = some (l - 1) := by
      rw [← ht, intRange_getLast c l h]
    simp only [VlanPool.unused, ht, hlast]
    simp only [Option.getD_some]
    rw [show l - 1 + 1 = l by omega]
  · intro h
    simp only [VlanPool.unused, intRange_eq_nil c l h]

/-- Witness for C4 on the partially used pool `⟨1, 4, 2⟩`. -/
theorem c4_unused_spec_witness :
    VlanPool.unused ⟨1, 4, 2⟩ = some ((2, 4), ⟨1, 4, 4⟩) :=
  (c4_unused_spec 1 4 2).1 (by decide)

/-! ## Claim C7: best-fit selection -/

theorem findBestLoop_spec (p : Nat) (hp : p ≤ 32) :
    ∀ (l l1 : List IPNetwork) (acc : Option IPNetwork × Nat),
      AccInv p l1 acc → ResSpec p (l1 ++ l) (findBestLoop p l acc) := by
  intro l
  induction l with
  | nil =>
    rintro l1 ⟨ob, c⟩ hinv
    rw [List.append_nil]
    simp only [findBestLoop]
    match ob with
    | none => exact hinv.2
    | some b =>
      obtain ⟨hc, hblt, hpos, hc32, la, lb, hsp, hla, hlb⟩ := hinv
      exact ⟨la, lb, hsp, le_of_lt hblt, hla, hlb⟩
  | cons net rest ih =>
    rintro l1 ⟨ob, c⟩ hinv
    simp only [findBestLoop]
    by_cases hb : net.plen = p
    · rw [if_pos hb]
      refine ⟨l1, rest, rfl, le_of_eq hb, ?_, ?_⟩
      · intro x hx hxe
        have hzero : costOf p net = 0 := by simp [costOf, hb]
        rw [hzero]
        match ob with
        | none => exact absurd hxe (hinv.2 x hx)
        | some b =>
          obtain ⟨hc, hblt, hpos, hc32, la, lb, hsp, hla, hlb⟩ := hinv
          rw [hsp] at hx
          rcases List.mem_append.mp hx with hx1 | hx2
          · have := hla x hx1 hxe
            omega
          · rcases List.mem_cons.mp hx2 with rfl | hx3
            · omega
            · have := hlb x hx3 hxe
              omega
      · intro x _ _
        have hzero : costOf p net = 0 := by simp [costOf, hb]
        rw [hzero]
        exact Nat.zero_le _
    · rw [if_neg hb]
      by_cases hlt : net.plen < p
      · rw [if_pos hlt]
        by_cases hcost : p - net.plen < (ob, c).2
        · rw [if_pos hcost]
          have hres := ih (l1 ++ [net]) (some net, p - net.plen) ?_
          · rw [List.append_assoc] at hres
            simpa using hres
          · refine ⟨rfl, hlt, by omega, by omega, l1, [], rfl, ?_, by simp⟩
            intro x hx hxe
            match ob with
            | none => exact absurd hxe (hinv.2 x hx)
            | some b =>
              obtain ⟨hc, hblt, hpos, hc32, la, lb, hsp, hla, hlb⟩ := hinv
              simp only at hcost
              rw [hc] at hcost
              rw [hsp] at hx
              simp only [costOf] at *
              rcases List.mem_append.mp hx with hx1 | hx2
              · have := hla x hx1 hxe
                omega
              · rcases List.mem_cons.mp hx2 with rfl | hx3
                · omega
                · have := hlb x hx3 hxe
                  omega
        · rw [if_neg hcost]
          have hres := ih (l1 ++ [net]) (ob, c) ?_
          · rw [List.append_assoc] at hres
            simpa using hres
          · match ob with
            | none =>
              obtain ⟨hc999, _⟩ := hinv
              simp only at hcost
              rw [hc999] at hcost
              omega
            | some b =>
              obtain ⟨hc, hblt, hpos, hc32, la, lb, hsp, hla, hlb⟩ := hinv
              refine ⟨hc, hblt, hpos, hc32, la, lb ++ [net], by rw [hsp]; simp, hla, ?_⟩
              intro x hx hxe
              rcases List.mem_append.mp hx with hx1 | hx2
              · exact hlb x hx1 hxe
              · rcases List.mem_singleton.mp hx2 with rfl
                simp only at hcost
                rw [hc] at hcost
                simp only [costOf] at *
                omega
      · rw [if_neg hlt]
        have hres := ih (l1 ++ [net]) (ob, c) ?_
        · rw [List.append_assoc] at hres
          simpa using hres
        · have hnet : ¬ net.plen ≤ p := by omega
          match ob with
          | none =>
            refine ⟨hinv.1, ?_⟩
            intro x hx
            rcases List.mem_append.mp hx with hx1 | hx2
            · exact hinv.2 x hx1
            · rcases List.mem_singleton.mp hx2 with rfl
              exact hnet
          | some b =>
            obtain ⟨hc, hblt, hpos, hc32, la, lb, hsp, hla, hlb⟩ := hinv
            refine ⟨hc, hblt, hpos, hc32, la, lb ++ [net], by rw [hsp]; simp, hla, ?_⟩
            intro x hx hxe
            rcases List.mem_append.mp hx with hx1 | hx2
            · exact hlb x hx1 hxe
            · rcases List.mem_singleton.mp hx2 with rfl
              exact absurd hxe hnet

/-- C7: (general part) whenever `allocate_subnet` succeeds, the carved
candidate is the first-encountered minimum-cost eligible net of the
compacted free set scanned in ascending address order, and the returned
subnet is the numerically first sub-block of that candidate at the
requested length; `allocate_subnet` fails exactly when no candidate
qualifies.  (Concrete part) with free set `{10.0.0.0/24, 10.1.0.0/26}` a
request for /27 returns `10.1.0.0/27`. -/
theorem c7_best_fit :
    (∀ (pl : IPPool) (p : Nat), p ≤ 32 →
      (∀ sub pl', IPPool.allocate_subnet pl p = some (sub, pl') →
        ∃ b, FirstMin (canon pl.pool) p b ∧ sub = ⟨netFirst b, p⟩) ∧
      (IPPool.allocate_subnet pl p = none →
        ∀ c ∈ canon pl.pool, ¬ c.plen ≤ p)) ∧
    IPPool.allocate_subnet
        { pool := [⟨167772160, 24⟩, ⟨167837696, 26⟩], reserved := [],
          input := ⟨167772160, 8⟩ } 27 =
      some (⟨167837696, 27⟩,
        { pool := [⟨167772160, 24⟩, ⟨167837728, 27⟩],
          reserved := [⟨167837696, 27⟩], input := ⟨167772160, 8⟩ }) := by
  refine ⟨?_, by decide⟩
  intro pl p hp
  have hres := findBestLoop_spec p hp (canon pl.pool) [] (none, 999)
    ⟨rfl, by simp⟩
  rw [List.nil_append] at hres
  rcases hfb : findBestLoop p (canon pl.pool) (none, 999) with ⟨ob, c⟩
  rw [hfb] at hres
  constructor
  · intro sub pl' hsome
    simp only [IPPool.allocate_subnet] at hsome
    rw [hfb] at hsome
    match ob, hres with
    | none, _ => simp at hsome
    | some b, hres =>
      dsimp only at hsome
      rw [if_neg (by omega)] at hsome
      simp only [Option.some.injEq, Prod.mk.injEq] at hsome
      exact ⟨b, hres, hsome.1.symm⟩
  · intro hnone
    simp only [IPPool.allocate_subnet] at hnone
    rw [hfb] at hnone
    match ob, hres with
    | none, hres => exact hres
    | some b, hres =>
      dsimp only at hnone
      rw [if_neg (by omega)] at hnone
      simp at hnone


/-- Witness for C7 at the claim's own concrete pool. -/
theorem c7_best_fit_witness :
    ∃ b, FirstMin (canon [⟨167772160, 24⟩, ⟨167837696, 26⟩]) 27 b ∧
      (⟨167837696, 27⟩ : IPNetwork) = ⟨netFirst b, 27⟩ :=
  (c7_best_fit.1
    { pool := [⟨167772160, 24⟩, ⟨167837696, 26⟩], reserved := [],
      input := ⟨167772160, 8⟩ } 27 (by decide)).1
    ⟨167837696, 27⟩
    { pool := [⟨167772160, 24⟩, ⟨167837728, 27⟩],
      reserved := [⟨167837696, 27⟩], input := ⟨167772160, 8⟩ }
    c7_best_fit.2

/-! ## Claim C9: the reconciler -/

theorem fePart_eq (p : Prior) (l : List (Key × SEntry)) :
    fePart p l =
      ((l.filter fun ks => (priorLookup p ks.1).isSome).map (claimOldOf p),
       (l.filter fun ks => (priorLookup p ks.1).isNone).map claimNewOf) := by
  induction l with
  | nil => rfl
  | cons ks rest ih =>
    simp only [fePart, ih]
    cases hpk : priorLookup p ks.1 with
    | none => simp [List.filter_cons, hpk, claimNewOf]
    | some pv => simp [List.filter_cons, hpk, claimOldOf]

theorem getIds_some (l : List (Key × FEntry)) (ids : List Int)
    (h : getIds l = some ids) :
    ids = l.map (fun ke => (getId ke.2.metadata).getD 0) ∧
    ∀ ke ∈ l, (getId ke.2.metadata).isSome = true := by
  induction l generalizing ids with
  | nil =>
    simp only [getIds, Option.some.injEq] at h
    subst h
    simp
  | cons ke t ih =>
    simp only [getIds, Option.bind_eq_bind] at h
    cases hg : getId ke.2.metadata with
    | none => rw [hg] at h; simp at h
    | some i =>
      rw [hg] at h
      simp only [Option.some_bind] at h
      cases ht : getIds t with
      | none => rw [ht] at h; simp at h
      | some r =>
        rw [ht] at h
        simp only [Option.some_bind, Option.pure_def, Option.some.injEq] at h
        obtain ⟨h1, h2⟩ := ih r ht
        subst h
        constructor
        · simp [hg, h1]
        · intro ke' hke'
          rcases List.mem_cons.mp hke' with rfl | hm
          · simp [hg]
          · exact h2 ke' hm

theorem mapIdx_congr' {α β : Type} (f g : Nat → α → β) (l : List α)
    (h : ∀ i a, f i a = g i a) : l.mapIdx f = l.mapIdx g := by
  induction l generalizing f g with
  | nil => rfl
  | cons a t ih =>
    rw [List.mapIdx_cons, List.mapIdx_cons, h 0 a,
      ih (fun i => f (i + 1)) (fun i => g (i + 1)) (fun i a => h (i + 1) a)]

theorem assignIds_eq (base : Int) (l : List (Key × FEntry)) :
    assignIds base l = claimAssign (base + 1) l := by
  induction l generalizing base with
  | nil => rfl
  | cons ke t ih =>
    simp only [assignIds, claimAssign, List.mapIdx_cons]
    congr 1
    · simp
    · rw [ih (base + 1)]
      simp only [claimAssign]
      apply mapIdx_congr'
      intro i a
      have : base + 1 + ((i : Nat) + 1 : Nat) = base + 1 + 1 + (i : Nat) := by
        push_cast
        ring
      rw [this]

/-- C9: the reconciler classifies every entry found in the snapshot as
old with the stored metadata (hence its sequence id) copied forward
verbatim; the output's old list is that set sorted ascending by id; and
the new entries are listed in schema declaration order carrying ids
`nextId, nextId+1, ...` with `nextId = 1 + max(id over all old entries,
default 0)`. -/
theorem c9_reconciler (d : Schema) (p : Prior) (old new : List (Key × FEntry))
    (h : filter_entries d p = some (old, new)) :
    old.Perm (((schemaEntries d).filter fun ks =>
        (priorLookup p ks.1).isSome).map (claimOldOf p)) ∧
    List.Sorted idLe old ∧
    (∀ ke ∈ old, (getId ke.2.metadata).isSome = true) ∧
    new = claimAssign
      (1 + maxIds ((((schemaEntries d).filter fun ks =>
          (priorLookup p ks.1).isSome).map (claimOldOf p)).map
        fun ke => (getId ke.2.metadata).getD 0))
      (((schemaEntries d).filter fun ks =>
        (priorLookup p ks.1).isNone).map claimNewOf) := by
  unfold filter_entries at h
  rw [fePart_eq] at h
  dsimp only at h
  cases hids : getIds (((schemaEntries d).filter fun ks =>
      (priorLookup p ks.1).isSome).map (claimOldOf p)) with
  | none => rw [hids] at h; exact absurd h (by simp)
  | some ids =>
    rw [hids] at h
    simp only [Option.some.injEq, Prod.mk.injEq] at h
    obtain ⟨hold, hnew⟩ := h
    obtain ⟨hid_eq, hid_some⟩ := getIds_some _ _ hids
    refine ⟨?_, ?_, ?_, ?_⟩
    · rw [← hold]
      exact List.perm_insertionSort idLe _
    · rw [← hold]
      exact List.sorted_insertionSort idLe _
    · intro ke hke
      apply hid_some
      rw [← hold] at hke
      exact (List.perm_insertionSort idLe _).subset hke
    · rw [← hnew, assignIds_eq, hid_eq, Int.add_comm]

/-- Witness for C9 on `dW9`/`pW9`. -/
theorem c9_reconciler_witness :
    ([((("n", "e1") : Key), (⟨"e1", "a", none, some 30, [("id", .i 5)], []⟩ : FEntry))]).Perm
      (((schemaEntries dW9).filter fun ks =>
        (priorLookup pW9 ks.1).isSome).map (claimOldOf pW9)) ∧
    List.Sorted idLe [((("n", "e1") : Key), (⟨"e1", "a", none, some 30, [("id", .i 5)], []⟩ : FEntry))] ∧
    (∀ ke ∈ [((("n", "e1") : Key), (⟨"e1", "a", none, some 30, [("id", .i 5)], []⟩ : FEntry))],
      (getId ke.2.metadata).isSome = true) ∧
    [((("n", "e2") : Key), (⟨"e2", "a", none, some 30, [("note", .s "x"), ("id", .i 6)], []⟩ : FEntry))] =
      claimAssign
        (1 + maxIds ((((schemaEntries dW9).filter fun ks =>
            (priorLookup pW9 ks.1).isSome).map (claimOldOf pW9)).map
          fun ke => (getId ke.2.metadata).getD 0))
        (((schemaEntries dW9).filter fun ks =>
          (priorLookup pW9 ks.1).isNone).map claimNewOf) :=
  c9_reconciler dW9 pW9 _ _ (by decide)

theorem processDirect_congr (v : NodeDecl) (st : AllocSt) (k : Key)
    (e1 e2 : FEntry) (hl : e2.label = e1.label) (hp : e2.preflen = e1.preflen)
    (hq : e2.properties = e1.properties)
    (hm : mdU2 e2.metadata e2.label = mdU2 e1.metadata e1.label) :
    processDirect v st k e2 = processDirect v st k e1 := by
  rw [hl] at hm
  simp only [processDirect, hl, hp, hq, hm]

theorem processDeferred_congr (st : AllocSt) (i1 i2 : DItem) (hrel : DRel i1 i2) :
    processDeferred st i2 = processDeferred st i1 := by
  obtain ⟨hk, h0, h1, _, hl, hs, _, hq, _, hm⟩ := hrel
  have hm' := hm ((if i1.p0 = "" then i1.key.1 else i1.p0), i1.p1)
  rw [hl] at hm'
  simp only [processDeferred, hk, h0, h1, hl, hs, hq, hm']

theorem pass2_congr (dfr1 dfr2 : List DItem) (hrel : List.Forall₂ DRel dfr1 dfr2) :
    ∀ st, pass2 st dfr2 = pass2 st dfr1 := by
  induction hrel with
  | nil => intro st; rfl
  | cons h t ih =>
    intro st
    simp only [pass2, processDeferred_congr st _ _ h]
    cases processDeferred st _ with
    | none => rfl
    | some st' => simp only [Option.some_bind, Option.bind_eq_bind]; exact ih st'

theorem pass1_congr (d : Schema) :
    ∀ (l1 l2 : List (Key × FEntry)), List.Forall₂ KRel l1 l2 →
    ∀ (acc1 acc2 : List DItem) (st : AllocSt), List.Forall₂ DRel acc1 acc2 →
    ∀ st1 dfr1, pass1 d st l1 acc1 = some (st1, dfr1) →
      ∃ dfr2, pass1 d st l2 acc2 = some (st1, dfr2) ∧ List.Forall₂ DRel dfr1 dfr2 := by
  intro l1 l2 hrel
  induction hrel with
  | nil =>
    intro acc1 acc2 st hacc st1 dfr1 hsome
    simp only [pass1, Option.some.injEq, Prod.mk.injEq] at hsome
    exact ⟨acc2, by simp [pass1, hsome.1], hsome.2 ▸ hacc⟩
  | @cons a b t1 t2 hab htail ih =>
    intro acc1 acc2 st hacc st1 dfr1 hsome
    obtain ⟨hk, he⟩ := hab
    obtain ⟨hname, hlbl, hsz, hpl, hprops, hmd2, hmd3⟩ := he
    simp only [pass1, Option.bind_eq_bind] at hsome ⊢
    rw [hk]
    cases hv : lookupA d.ipam a.1.1 with
    | none => rw [hv] at hsome; simp at hsome
    | some v =>
      rw [hv] at hsome
      simp only [Option.some_bind] at hsome ⊢
      cases hsza : a.2.size with
      | some s =>
        rw [hsza] at hsome
        dsimp only at hsome
        rw [hsz, hsza]
        dsimp only
        rw [hlbl]
        cases hps : lookupA v.ip_range a.2.label with
        | none => rw [hps] at hsome; simp at hsome
        | some pstr =>
          rw [hps] at hsome
          simp only [Option.some_bind] at hsome ⊢
          cases hsp : splitDot pstr with
          | nil => rw [hsp] at hsome; simp at hsome
          | cons p0 rest =>
            cases rest with
            | nil => rw [hsp] at hsome; simp at hsome
            | cons p1 rest2 =>
              cases rest2 with
              | nil =>
                rw [hsp] at hsome
                simp only at hsome ⊢
                refine ih (acc1 ++ [⟨a.1, a.2, p0, p1⟩]) (acc2 ++ [⟨a.1, b.2, p0, p1⟩])
                  st ?_ st1 dfr1 hsome
                refine List.rel_append hacc ?_
                refine List.Forall₂.cons ?_ List.Forall₂.nil
                exact ⟨rfl, rfl, rfl, hname, hlbl, hsz, hpl, hprops,
                  by simp [hsz, hsza], hmd3 (by simp [hsza])⟩
              | cons p2 rest3 => rw [hsp] at hsome; simp at hsome
      | none =>
        rw [hsza] at hsome
        dsimp only at hsome
        rw [hsz, hsza]
        dsimp only
        rw [processDirect_congr v st a.1 a.2 b.2 hlbl hpl hprops (hmd2 hsza)]
        cases hpd : processDirect v st a.1 a.2 with
        | none => rw [hpd] at hsome; simp at hsome
        | some st' =>
          rw [hpd] at hsome
          simp only [Option.some_bind] at hsome ⊢
          exact ih acc1 acc2 st' hacc st1 dfr1 hsome

theorem runFor_congr (d : Schema) (st : AllocSt) (l1 l2 : List (Key × FEntry))
    (hrel : List.Forall₂ KRel l1 l2) (st' : AllocSt)
    (hrun : runFor d st l1 = some st') : runFor d st l2 = some st' := by
  simp only [runFor, Option.bind_eq_bind] at hrun ⊢
  cases hp1 : pass1 d st l1 [] with
  | none => rw [hp1] at hrun; simp at hrun
  | some r =>
    rw [hp1] at hrun
    simp only [Option.some_bind] at hrun
    obtain ⟨dfr2, hp2, hdrel⟩ := pass1_congr d l1 l2 hrel [] [] st List.Forall₂.nil
      r.1 r.2 (by rw [hp1])
    rw [hp2]
    simp only [Option.some_bind]
    rw [pass2_congr r.2 dfr2 hdrel]
    exact hrun

theorem processDirect_shape (v : NodeDecl) (st : AllocSt) (k : Key) (e : FEntry)
    (st' : AllocSt) (h : processDirect v st k e = some st') :
    e.preflen.isSome = true ∧
    ∃ rec1, st'.tmp = updA st.tmp k rec1 ∧ rec1.metadata = mdU2 e.metadata e.label := by
  simp only [processDirect, Option.bind_eq_bind] at h
  cases hpl : e.preflen with
  | none => rw [hpl] at h; simp at h
  | some pl =>
    rw [hpl] at h
    simp only [Option.some_bind] at h
    cases had : allocDirect v st.ipp st.vp e.label pl with
    | none => rw [had] at h; simp at h
    | some res =>
      obtain ⟨ipp1, vp1, vid, net, rng, gw⟩ := res
      rw [had] at h
      simp only [Option.some_bind, Option.pure_def, Option.some.injEq] at h
      refine ⟨rfl, ⟨vid, rng, gw, net, net.plen, netmaskOf net, e.properties,
        mdU2 e.metadata e.label⟩, ?_, rfl⟩
      rw [← h]

theorem processDeferred_shape (st : AllocSt) (it : DItem) (st' : AllocSt)
    (h : processDeferred st it = some st') :
    ∃ rec1, st'.tmp = updA st.tmp it.key rec1 ∧
      rec1.metadata = mdU3 it.entry.metadata
        ((if it.p0 = "" then it.key.1 else it.p0), it.p1) it.entry.label := by
  simp only [processDeferred, Option.bind_eq_bind] at h
  cases hpr : lookupA st.tmp ((if it.p0 = "" then it.key.1 else it.p0), it.p1) with
  | none => rw [hpr] at h; simp at h
  | some prec =>
    rw [hpr] at h
    simp only [Option.some_bind] at h
    cases hsz : it.entry.size with
    | none => rw [hsz] at h; simp at h
    | some sz =>
      rw [hsz] at h
      simp only [Option.some_bind] at h
      cases had : allocDeferred st.ipr ((if it.p0 = "" then it.key.1 else it.p0), it.p1)
          prec.cidr sz with
      | none => rw [had] at h; simp at h
      | some res =>
        obtain ⟨ipr2, rng, gw⟩ := res
        rw [had] at h
        simp only [Option.some_bind, Option.pure_def, Option.some.injEq] at h
        refine ⟨⟨none, rng, gw, prec.cidr, prec.cidr.plen, netmaskOf prec.cidr,
          it.entry.properties, mdU3 it.entry.metadata
            ((if it.p0 = "" then it.key.1 else it.p0), it.p1) it.entry.label⟩, ?_, rfl⟩
        rw [← h]

theorem dItemOf_shape (d : Schema) (ke : Key × FEntry) (it : DItem)
    (h : dItemOf d ke = some it) :
    it.key = ke.1 ∧ it.entry = ke.2 ∧
    resolveParent d ke.1 ke.2 =
      some ((if it.p0 = "" then ke.1.1 else it.p0), it.p1) := by
  simp only [dItemOf, Option.bind_eq_bind] at h
  cases hv : lookupA d.ipam ke.1.1 with
  | none => rw [hv] at h; simp at h
  | some v =>
    rw [hv] at h
    simp only [Option.some_bind] at h
    cases hps : lookupA v.ip_range ke.2.label with
    | none => rw [hps] at h; simp at h
    | some pstr =>
      rw [hps] at h
      simp only [Option.some_bind] at h
      cases hsp : splitDot pstr with
      | nil => rw [hsp] at h; simp at h
      | cons p0 rest =>
        cases rest with
        | nil => rw [hsp] at h; simp at h
        | cons p1 rest2 =>
          cases rest2 with
          | nil =>
            rw [hsp] at h
            simp only [Option.some.injEq] at h
            subst h
            refine ⟨rfl, rfl, ?_⟩
            simp only [resolveParent, Option.bind_eq_bind, hv, Option.some_bind,
              hps, hsp]
          | cons p2 rest3 => rw [hsp] at h; simp at h

theorem deferList_mem (d : Schema) (l : List (Key × FEntry)) (it : DItem)
    (h : it ∈ deferList d l) :
    ∃ ke ∈ l, ke.2.size.isSome = true ∧ dItemOf d ke = some it := by
  simp only [deferList, List.mem_filterMap] at h
  obtain ⟨ke, hke, hf⟩ := h
  cases hsz : ke.2.size with
  | none => rw [hsz] at hf; simp at hf
  | some s =>
    rw [hsz] at hf
    simp only [Option.some_bind, Option.bind_eq_bind] at hf
    exact ⟨ke, hke, by simp [hsz], hf⟩

theorem deferList_keys_nodup (d : Schema) (l : List (Key × FEntry))
    (hnd : (l.map Prod.fst).Nodup) : ((deferList d l).map (·.key)).Nodup := by
  induction l with
  | nil => simp [deferList]
  | cons ke t ih =>
    rw [List.map_cons, List.nodup_cons] at hnd
    have ht := ih hnd.2
    cases hf : ke.2.size.bind fun _ => dItemOf d ke with
    | none =>
      simpa [deferList, List.filterMap_cons, hf] using ht
    | some it =>
      have hit : dItemOf d ke = some it := by
        cases hsz : ke.2.size with
        | none => rw [hsz] at hf; simp at hf
        | some s => rw [hsz] at hf; simpa using hf
      have hkey : it.key = ke.1 := (dItemOf_shape d ke it hit).1
      simp only [deferList, List.filterMap_cons, hf, List.map_cons, List.nodup_cons]
      refine ⟨?_, ht⟩
      intro hmem
      simp only [List.mem_map] at hmem
      obtain ⟨it2, hit2, hkey2⟩ := hmem
      obtain ⟨ke2, hke2, _, hd2⟩ := deferList_mem d t it2 hit2
      have : it2.key = ke2.1 := (dItemOf_shape d ke2 it2 hd2).1
      apply hnd.1
      rw [← hkey, ← hkey2, this]
      exact List.mem_map_of_mem Prod.fst hke2

theorem nodupKeys_eq_of_mem {α : Type} (l : List (Key × α))
    (hnd : (l.map Prod.fst).Nodup) (a b : Key × α)
    (ha : a ∈ l) (hb : b ∈ l) (hk : a.1 = b.1) : a = b := by
  induction l with
  | nil => simp at ha
  | cons hd t ih =>
    rw [List.map_cons, List.nodup_cons] at hnd
    rcases List.mem_cons.mp ha with rfl | ha'
    · rcases List.mem_cons.mp hb with rfl | hb'
      · rfl
      · exact absurd (hk ▸ List.mem_map_of_mem Prod.fst hb') hnd.1
    · rcases List.mem_cons.mp hb with rfl | hb'
      · exact absurd (hk ▸ List.mem_map_of_mem Prod.fst ha') hnd.1
      · exact ih hnd.2 ha' hb'

theorem pass1_meta (d : Schema) :
    ∀ (l : List (Key × FEntry)) (acc : List DItem) (st st1 : AllocSt)
      (dfr : List DItem), pass1 d st l acc = some (st1, dfr) →
      dfr = acc ++ deferList d l ∧
      ((l.map Prod.fst).Nodup →
        ∀ ke ∈ l, ke.2.size = none →
          ke.2.preflen.isSome = true ∧
          ∃ r, lookupA st1.tmp ke.1 = some r ∧
            r.metadata = mdU2 ke.2.metadata ke.2.label) ∧
      (∀ key : Key, key ∉ l.map Prod.fst →
        lookupA st1.tmp key = lookupA st.tmp key) ∧
      (∀ ke ∈ l, ke.2.size ≠ none → ∃ it, dItemOf d ke = some it) := by
  intro l
  induction l with
  | nil =>
    intro acc st st1 dfr h
    simp only [pass1, Option.some.injEq, Prod.mk.injEq] at h
    refine ⟨by rw [← h.2]; simp [deferList], by simp, ?_, by simp⟩
    intro key _
    rw [← h.1]
  | cons ke t ih =>
    intro acc st st1 dfr h
    obtain ⟨k, e⟩ := ke
    simp only [pass1, Option.bind_eq_bind] at h
    cases hv : lookupA d.ipam k.1 with
    | none => rw [hv] at h; simp at h
    | some v =>
      rw [hv] at h
      simp only [Option.some_bind] at h
      cases hsz : e.size with
      | some s =>
        rw [hsz] at h
        dsimp only at h
        cases hps : lookupA v.ip_range e.label with
        | none => rw [hps] at h; simp at h
        | some pstr =>
          rw [hps] at h
          simp only [Option.some_bind] at h
          cases hsp : splitDot pstr with
          | nil => rw [hsp] at h; simp at h
          | cons p0 rest =>
            cases rest with
            | nil => rw [hsp] at h; simp at h
            | cons p1 rest2 =>
              cases rest2 with
              | cons p2 rest3 => rw [hsp] at h; simp at h
              | nil =>
                rw [hsp] at h
                simp only at h
                obtain ⟨ha, hb, hc, hd⟩ := ih (acc ++ [⟨k, e, p0, p1⟩]) st st1 dfr h
                have hdl : deferList d (((k, e) : Key × FEntry) :: t) =
                    ⟨k, e, p0, p1⟩ :: deferList d t := by
                  simp only [deferList, List.filterMap_cons]
                  rw [show ((((k, e) : Key × FEntry)).2.size.bind fun _ =>
                      dItemOf d ((k, e) : Key × FEntry)) =
                      some ⟨k, e, p0, p1⟩ by
                    simp only [hsz, Option.some_bind, Option.bind_eq_bind]
                    simp only [dItemOf, Option.bind_eq_bind, hv, Option.some_bind,
                      hps, hsp]]
                refine ⟨by rw [ha, hdl]; simp, ?_, ?_, ?_⟩
                · intro hnd ke' hke' hsz'
                  rcases List.mem_cons.mp hke' with rfl | hke''
                  · rw [hsz] at hsz'
                    exact absurd hsz' (by simp)
                  · rw [List.map_cons, List.nodup_cons] at hnd
                    exact hb hnd.2 ke' hke'' hsz'
                · intro key hkey
                  rw [List.map_cons] at hkey
                  exact hc key (fun hm => hkey (List.mem_cons_of_mem _ hm))
                · intro ke' hke' hsz'
                  rcases List.mem_cons.mp hke' with rfl | hke''
                  · refine ⟨⟨k, e, p0, p1⟩, ?_⟩
                    simp only [dItemOf, Option.bind_eq_bind, hv, Option.some_bind,
                      hps, hsp]
                  · exact hd ke' hke'' hsz'
      | none =>
        rw [hsz] at h
        dsimp only at h
        cases hpd : processDirect v st k e with
        | none => rw [hpd] at h; simp at h
        | some st' =>
          rw [hpd] at h
          simp only [Option.some_bind] at h
          obtain ⟨ha, hb, hc, hd⟩ := ih acc st' st1 dfr h
          obtain ⟨hpl, rec1, htmp, hmd⟩ := processDirect_shape v st k e st' hpd
          have hdl : deferList d (((k, e) : Key × FEntry) :: t) = deferList d t := by
            simp [deferList, List.filterMap_cons, hsz]
          refine ⟨by rw [ha, hdl], ?_, ?_, ?_⟩
          · intro hnd ke' hke' hsz'
            rw [List.map_cons, List.nodup_cons] at hnd
            rcases List.mem_cons.mp hke' with rfl | hke''
            · refine ⟨hpl, rec1, ?_, hmd⟩
              dsimp only
              rw [hc k hnd.1, htmp, lookupA_updA_self]
            · exact hb hnd.2 ke' hke'' hsz'
          · intro key hkey
            rw [List.map_cons] at hkey
            have hk1 : key ≠ k := fun hh => hkey (hh ▸ List.mem_cons_self _ _)
            rw [hc key (fun hm => hkey (List.mem_cons_of_mem _ hm)), htmp,
              lookupA_updA_ne _ _ _ _ (Ne.symm hk1)]
          · intro ke' hke' hsz'
            rcases List.mem_cons.mp hke' with rfl | hke''
            · exact absurd hsz hsz'
            · exact hd ke' hke'' hsz'

theorem pass2_meta :
    ∀ (dfr : List DItem) (st st' : AllocSt),
      ((dfr.map (·.key)).Nodup) → pass2 st dfr = some st' →
      (∀ it ∈ dfr, ∃ r, lookupA st'.tmp it.key = some r ∧
        r.metadata = mdU3 it.entry.metadata
          ((if it.p0 = "" then it.key.1 else it.p0), it.p1) it.entry.label) ∧
      (∀ key : Key, key ∉ dfr.map (·.key) →
        lookupA st'.tmp key = lookupA st.tmp key) := by
  intro dfr
  induction dfr with
  | nil =>
    intro st st' _ h
    simp only [pass2, Option.some.injEq] at h
    exact ⟨by simp, fun key _ => by rw [← h]⟩
  | cons it rest ih =>
    intro st st' hnd h
    rw [List.map_cons, List.nodup_cons] at hnd
    simp only [pass2, Option.bind_eq_bind] at h
    cases hpd : processDeferred st it with
    | none => rw [hpd] at h; simp at h
    | some stm =>
      rw [hpd] at h
      simp only [Option.some_bind] at h
      obtain ⟨ha, hb⟩ := ih stm st' hnd.2 h
      obtain ⟨rec1, htmp, hmd⟩ := processDeferred_shape st it stm hpd
      constructor
      · intro it2 hit2
        rcases List.mem_cons.mp hit2 with rfl | hit3
        · refine ⟨rec1, ?_, hmd⟩
          rw [hb it2.key hnd.1, htmp, lookupA_updA_self]
        · exact ha it2 hit3
      · intro key hkey
        rw [List.map_cons] at hkey
        have hk1 : key ≠ it.key := fun hh => hkey (hh ▸ List.mem_cons_self _ _)
        rw [hb key (fun hm => hkey (List.mem_cons_of_mem _ hm)), htmp,
          lookupA_updA_ne _ _ _ _ (Ne.symm hk1)]

theorem runFor_meta (d : Schema) (st st' : AllocSt) (l : List (Key × FEntry))
    (hnd : (l.map Prod.fst).Nodup) (hrun : runFor d st l = some st') :
    ∀ ke ∈ l, ∃ m, mdFinal d ke.1 ke.2 = some m ∧
      ∃ r, lookupA st'.tmp ke.1 = some r ∧ r.metadata = m := by
  simp only [runFor, Option.bind_eq_bind] at hrun
  cases hp1 : pass1 d st l [] with
  | none => rw [hp1] at hrun; simp at hrun
  | some p =>
    rw [hp1] at hrun
    simp only [Option.some_bind] at hrun
    obtain ⟨st1, dfr⟩ := p
    obtain ⟨hdfr, hdirect, hframe1, hdefer⟩ := pass1_meta d l [] st st1 dfr hp1
    rw [List.nil_append] at hdfr
    subst hdfr
    have hdnd := deferList_keys_nodup d l hnd
    obtain ⟨hdef, hframe2⟩ := pass2_meta (deferList d l) st1 st' hdnd hrun
    intro ke hke
    cases hsz : ke.2.size with
    | none =>
      obtain ⟨hpl, r, hr, hmd⟩ := hdirect hnd ke hke hsz
      refine ⟨mdU2 ke.2.metadata ke.2.label, by simp [mdFinal, hsz, hpl], r, ?_, hmd⟩
      rw [hframe2 ke.1 ?_, hr]
      intro hmem
      simp only [List.mem_map] at hmem
      obtain ⟨it, hit, hkey⟩ := hmem
      obtain ⟨ke2, hke2, hsz2, hd2⟩ := deferList_mem d l it hit
      obtain ⟨hk2, _, _⟩ := dItemOf_shape d ke2 it hd2
      have heq : ke2 = ke :=
        nodupKeys_eq_of_mem l hnd ke2 ke hke2 hke (by rw [← hk2, hkey])
      rw [heq, hsz] at hsz2
      simp at hsz2
    | some s =>
      obtain ⟨it, hdit⟩ := hdefer ke hke (by simp [hsz])
      have hmem : it ∈ deferList d l := by
        simp only [deferList, List.mem_filterMap]
        exact ⟨ke, hke, by simp [hsz, hdit]⟩
      obtain ⟨hk2, he2, hres⟩ := dItemOf_shape d ke it hdit
      obtain ⟨r, hr, hmd⟩ := hdef it hmem
      refine ⟨mdU3 ke.2.metadata ((if it.p0 = "" then ke.1.1 else it.p0), it.p1)
        ke.2.label, by simp [mdFinal, hsz, hres], r, ?_, ?_⟩
      · rw [← hk2]
        exact hr
      · rw [hmd, hk2, he2]

theorem runFor_nil (d : Schema) (st : AllocSt) : runFor d st [] = some st := rfl

theorem keys_assignIds (b : Int) (l : List (Key × FEntry)) :
    (assignIds b l).map Prod.fst = l.map Prod.fst := by
  induction l generalizing b with
  | nil => rfl
  | cons ke t ih => simp [assignIds, ih]

theorem length_assignIds (b : Int) (l : List (Key × FEntry)) :
    (assignIds b l).length = l.length := by
  induction l generalizing b with
  | nil => rfl
  | cons ke t ih => simp [assignIds, ih]

theorem assignIds_getElem (l : List (Key × FEntry)) (b : Int) (i : Nat)
    (h : i < (assignIds b l).length) (h' : i < l.length) :
    (assignIds b l)[i] = ((l[i]).1,
      { (l[i]).2 with metadata := dUpd (l[i]).2.metadata "id" (.i (b + 1 + i)) }) := by
  induction l generalizing b i with
  | nil => simp at h'
  | cons ke t ih =>
    cases i with
    | zero => simp [assignIds]
    | succ j =>
      have hj : j < t.length := by simpa using h'
      have hj2 : j < (assignIds (b + 1) t).length := by rw [length_assignIds]; exact hj
      simp only [assignIds, List.getElem_cons_succ]
      rw [ih (b + 1) j hj2 hj]
      have hcast : b + 1 + 1 + (j : Int) = b + 1 + ((j + 1 : Nat) : Int) := by
        push_cast
        ring
      rw [hcast]

theorem mdFinal_direct (d : Schema) (k : Key) (e : FEntry) (m : MDict)
    (hsz : e.size = none) (h : mdFinal d k e = some m) :
    m = mdU2 e.metadata e.label := by
  simp only [mdFinal] at h
  rw [hsz] at h
  dsimp only at h
  cases hpl : e.preflen.isSome with
  | false => rw [hpl] at h; simp at h
  | true =>
    rw [hpl] at h
    simp only [if_true, Option.some.injEq] at h
    exact h.symm

theorem mdFinal_sized (d : Schema) (k : Key) (e : FEntry) (m : MDict) (s : Int)
    (hsz : e.size = some s) (h : mdFinal d k e = some m) :
    ∃ pr, resolveParent d k e = some pr ∧ m = mdU3 e.metadata pr e.label := by
  simp only [mdFinal] at h
  rw [hsz] at h
  dsimp only at h
  cases hr : resolveParent d k e with
  | none => rw [hr] at h; simp at h
  | some pr =>
    rw [hr] at h
    simp only [Option.map] at h
    simp only [Option.some.injEq] at h
    exact ⟨pr, rfl, h.symm⟩

theorem getId_mdFinal (d : Schema) (k : Key) (e : FEntry) (m : MDict)
    (h : mdFinal d k e = some m) : getId m = getId e.metadata := by
  cases hsz : e.size with
  | some s =>
    obtain ⟨pr, _, hm⟩ := mdFinal_sized d k e m s hsz h
    rw [hm, getId_mdU3]
  | none =>
    rw [mdFinal_direct d k e m hsz h, getId_mdU2]

theorem getIds_isSome (l : List (Key × FEntry))
    (h : ∀ ke ∈ l, (getId ke.2.metadata).isSome = true) :
    ∃ ids, getIds l = some ids := by
  induction l with
  | nil => exact ⟨[], rfl⟩
  | cons ke t ih =>
    obtain ⟨ids, hids⟩ := ih fun ke' hke' => h ke' (List.mem_cons_of_mem _ hke')
    have hk := h ke (List.mem_cons_self _ _)
    cases hg : getId ke.2.metadata with
    | none => rw [hg] at hk; simp at hk
    | some i =>
      refine ⟨i :: ids, ?_⟩
      simp [getIds, hg, hids]

theorem mkIpa_lookup (tmp : List (Key × Record)) (k : String) :
    ∀ (schema : List SEntry) (ipa : List (String × Record)),
      mkIpa tmp k schema = some ipa → (schema.map (·.name)).Nodup →
      ∀ s ∈ schema, ∃ r, lookupA ipa s.name = some r ∧
        lookupA tmp ((k, s.name) : Key) = some r := by
  intro schema
  induction schema with
  | nil => intro ipa _ _ s hs; simp at hs
  | cons s0 rest ih =>
    intro ipa h hnd s hs
    rw [List.map_cons, List.nodup_cons] at hnd
    simp only [mkIpa, Option.bind_eq_bind] at h
    cases hr : lookupA tmp ((k, s0.name) : Key) with
    | none => rw [hr] at h; simp at h
    | some r0 =>
      rw [hr] at h
      simp only [Option.some_bind] at h
      cases ht : mkIpa tmp k rest with
      | none => rw [ht] at h; simp at h
      | some t =>
        rw [ht] at h
        simp only [Option.some_bind, Option.pure_def, Option.some.injEq] at h
        rcases List.mem_cons.mp hs with rfl | hs'
        · refine ⟨r0, ?_, hr⟩
          rw [← h]
          simp [lookupA]
        · obtain ⟨r, hra, hrb⟩ := ih t ht hnd.2 s hs'
          refine ⟨r, ?_, hrb⟩
          rw [← h]
          have hne : s0.name ≠ s.name := by
            intro hh
            exact hnd.1 (hh ▸ List.mem_map_of_mem (·.name) hs')
          simp only [lookupA, if_neg hne]
          exact hra

theorem mkIpam_lookup (tmp : List (Key × Record)) :
    ∀ (nodes : List (String × NodeDecl)) (ipam : List (String × NodeOut)),
      mkIpam tmp nodes = some ipam → (nodes.map Prod.fst).Nodup →
      ∀ kv ∈ nodes, ∃ ipa, lookupA ipam kv.1 = some (NodeOut.mk kv.2.properties ipa) ∧
        mkIpa tmp kv.1 kv.2.schema = some ipa := by
  intro nodes
  induction nodes with
  | nil => intro ipam _ _ kv hkv; simp at hkv
  | cons kv0 rest ih =>
    intro ipam h hnd kv hkv
    rw [List.map_cons, List.nodup_cons] at hnd
    simp only [mkIpam, Option.bind_eq_bind] at h
    cases hia : mkIpa tmp kv0.1 kv0.2.schema with
    | none => rw [hia] at h; simp at h
    | some ipa0 =>
      rw [hia] at h
      simp only [Option.some_bind] at h
      cases ht : mkIpam tmp rest with
      | none => rw [ht] at h; simp at h
      | some t =>
        rw [ht] at h
        simp only [Option.some_bind, Option.pure_def, Option.some.injEq] at h
        rcases List.mem_cons.mp hkv with rfl | hkv'
        · refine ⟨ipa0, ?_, hia⟩
          rw [← h]
          simp [lookupA]
        · obtain ⟨ipa, hla, hlb⟩ := ih t ht hnd.2 kv hkv'
          refine ⟨ipa, ?_, hlb⟩
          rw [← h]
          have hne : kv0.1 ≠ kv.1 := by
            intro hh
            exact hnd.1 (hh ▸ List.mem_map_of_mem Prod.fst hkv')
          simp only [lookupA, if_neg hne]
          exact hla

theorem schemaEntries_node_nodup (d : Schema)
    (h2 : ((schemaEntries d).map Prod.fst).Nodup) :
    ∀ kv ∈ d.ipam, (kv.2.schema.map (·.name)).Nodup := by
  suffices hgen : ∀ nodes : List (String × NodeDecl),
      ((nodes.flatMap fun kv => kv.2.schema.map fun s => ((kv.1, s.name) : Key)).Nodup) →
      ∀ kv ∈ nodes, (kv.2.schema.map (·.name)).Nodup by
    apply hgen
    have hkeys : (schemaEntries d).map Prod.fst =
        d.ipam.flatMap fun kv => kv.2.schema.map fun s => ((kv.1, s.name) : Key) := by
      simp only [schemaEntries, List.map_flatMap, List.map_map]
      rfl
    rw [hkeys] at h2
    exact h2
  intro nodes
  induction nodes with
  | nil => intro _ kv hkv; simp at hkv
  | cons kv0 rest ih =>
    intro h2 kv hkv
    rw [List.flatMap_cons] at h2
    rcases List.mem_cons.mp hkv with rfl | hkv'
    · have hl := h2.of_append_left
      have heq : kv.2.schema.map (fun s => ((kv.1, s.name) : Key)) =
          (kv.2.schema.map (·.name)).map fun nm => ((kv.1, nm) : Key) := by
        simp only [List.map_map]
        rfl
      rw [heq] at hl
      exact List.Nodup.of_map _ hl
    · exact ih h2.of_append_right kv hkv'

theorem prior_of_assemble (d : Schema) (tmp : List (Key × Record))
    (ipam : List (String × NodeOut)) (hwf : WFKeys d)
    (hm : mkIpam tmp d.ipam = some ipam) :
    ∀ ks ∈ schemaEntries d, ∃ r, priorLookup ipam ks.1 = some r ∧
      lookupA tmp ks.1 = some r := by
  intro ks hks
  simp only [schemaEntries, List.mem_flatMap, List.mem_map] at hks
  obtain ⟨kv, hkv, s, hs, hks⟩ := hks
  obtain ⟨ipa, hla, hlb⟩ := mkIpam_lookup tmp d.ipam ipam hm hwf.1 kv hkv
  have hnn := schemaEntries_node_nodup d hwf.2 kv hkv
  obtain ⟨r, hra, hrb⟩ := mkIpa_lookup tmp kv.1 kv.2.schema ipa hlb hnn s hs
  refine ⟨r, ?_, ?_⟩
  · rw [← hks]
    simp only [priorLookup]
    rw [hla]
    simpa using hra
  · rw [← hks]
    exact hrb

theorem filter_entries_first (d : Schema) :
    filter_entries d [] =
      some ([], assignIds 0 ((schemaEntries d).map claimNewOf)) := by
  have h1 : (schemaEntries d).filter
      (fun ks => (priorLookup ([] : Prior) ks.1).isSome) = [] := by
    rw [List.filter_eq_nil_iff]
    intro a _
    simp [priorLookup, lookupA]
  have h2 : (schemaEntries d).filter
      (fun ks => (priorLookup ([] : Prior) ks.1).isNone) = schemaEntries d := by
    rw [List.filter_eq_self]
    intro a _
    simp [priorLookup, lookupA]
  simp only [filter_entries, fePart_eq, h1, h2, List.map_nil]
  rfl

/-- C1: the planner is idempotent: when a first run (empty previous
result) succeeds with output `O`, feeding the previous-result snapshot of
`O` back into a second run reproduces exactly `O` — every record keeps its
address assignments and its id. (Stated for schemas whose node names and
per-node entry keys are duplicate-free, as the YAML mapping input
guarantees.) -/
theorem c1_idempotent (d : Schema) (O : Output) (hwf : WFKeys d)
    (h : alloc_ips d [] = some O) : alloc_ips d (toPrior O) = some O := by
  simp only [alloc_ips, Option.bind_eq_bind] at h
  cases hipp : convert_subnets d with
  | none => rw [hipp] at h; simp at h
  | some ipp0 =>
    rw [hipp] at h
    simp only [Option.some_bind] at h
    rw [filter_entries_first d] at h
    simp only [Option.some_bind] at h
    rw [runFor_nil] at h
    simp only [Option.some_bind] at h
    cases hrun : runFor d ⟨[], ipp0, convert_vlans d, []⟩
        (assignIds 0 ((schemaEntries d).map claimNewOf)) with
    | none => rw [hrun] at h; simp at h
    | some stA =>
      rw [hrun] at h
      simp only [Option.some_bind] at h
      cases hmk : mkIpam stA.tmp d.ipam with
      | none => rw [hmk] at h; simp at h
      | some ipam =>
        rw [hmk] at h
        simp only [Option.some_bind, Option.pure_def, Option.some.injEq] at h
        -- abbreviations (written out in full in every statement)
        have hlen1 : (assignIds 0 ((schemaEntries d).map claimNewOf)).length =
            (schemaEntries d).length := by
          rw [length_assignIds, List.length_map]
        have hkeys1 : (assignIds 0 ((schemaEntries d).map claimNewOf)).map Prod.fst =
            (schemaEntries d).map Prod.fst := by
          rw [keys_assignIds, List.map_map]
          exact List.map_congr_left fun a _ => rfl
        have hnd1 : ((assignIds 0 ((schemaEntries d).map claimNewOf)).map
            Prod.fst).Nodup := by
          rw [hkeys1]
          exact hwf.2
        have hmeta := runFor_meta d _ stA _ hnd1 hrun
        have hassm := prior_of_assemble d stA.tmp ipam hwf hmk
        have hget1 : ∀ (i : Nat) (hi : i < (schemaEntries d).length)
            (hi1 : i < (assignIds 0 ((schemaEntries d).map claimNewOf)).length),
            (assignIds 0 ((schemaEntries d).map claimNewOf))[i] =
              (((schemaEntries d)[i]).1, toF ((schemaEntries d)[i]).2
                (dUpd (((schemaEntries d)[i]).2.metadata.getD []) "id"
                  (.i (0 + 1 + (i : Int))))) := by
          intro i hi hi1
          have hib : i < ((schemaEntries d).map claimNewOf).length := by
            simpa using hi
          rw [assignIds_getElem _ 0 i hi1 hib]
          rw [List.getElem_map]
          rfl
        have hIdx : ∀ (i : Nat) (hi : i < (schemaEntries d).length), ∃ r : Record,
            priorLookup ipam (((schemaEntries d)[i]).1) = some r ∧
            lookupA stA.tmp (((schemaEntries d)[i]).1) = some r ∧
            mdFinal d (((schemaEntries d)[i]).1) (toF ((schemaEntries d)[i]).2
              (dUpd (((schemaEntries d)[i]).2.metadata.getD []) "id"
                (.i (0 + 1 + (i : Int))))) = some r.metadata ∧
            getId r.metadata = some (0 + 1 + (i : Int)) := by
          intro i hi
          obtain ⟨r, hpa, hpb⟩ := hassm ((schemaEntries d)[i]) (List.getElem_mem hi)
          have hi1 : i < (assignIds 0 ((schemaEntries d).map claimNewOf)).length := by
            rw [hlen1]
            exact hi
          obtain ⟨m, hmf, r', hr', hrm⟩ :=
            hmeta ((assignIds 0 ((schemaEntries d).map claimNewOf))[i])
              (List.getElem_mem hi1)
          rw [hget1 i hi hi1] at hmf hr'
          dsimp only at hmf hr'
          rw [hpb] at hr'
          injection hr' with hr'
          subst hr'
          refine ⟨r, hpa, hpb, ?_, ?_⟩
          · rw [hrm]
            exact hmf
          · rw [hrm, getId_mdFinal d _ _ m hmf]
            dsimp only [toF]
            rw [getId_dUpd_id]
        have hall : ∀ ks ∈ schemaEntries d,
            (priorLookup ipam ks.1).isSome = true := by
          intro ks hks
          obtain ⟨r, hpa, _⟩ := hassm ks hks
          rw [hpa]
          rfl
        have hfilterS : (schemaEntries d).filter
            (fun ks => (priorLookup ipam ks.1).isSome) = schemaEntries d :=
          List.filter_eq_self.mpr hall
        have hfilterN : (schemaEntries d).filter
            (fun ks => (priorLookup ipam ks.1).isNone) = [] := by
          rw [List.filter_eq_nil_iff]
          intro a ha
          have h5 := hall a ha
          cases hpl : priorLookup ipam a.1 with
          | none => rw [hpl] at h5; simp at h5
          | some r => simp [hpl]
        have hlen2 : ((schemaEntries d).map (claimOldOf ipam)).length =
            (schemaEntries d).length := by
          rw [List.length_map]
        have hget2 : ∀ (i : Nat) (hi : i < (schemaEntries d).length)
            (hi2 : i < ((schemaEntries d).map (claimOldOf ipam)).length)
            (r : Record), priorLookup ipam (((schemaEntries d)[i]).1) = some r →
            ((schemaEntries d).map (claimOldOf ipam))[i] =
              (((schemaEntries d)[i]).1, toF ((schemaEntries d)[i]).2 r.metadata) := by
          intro i hi hi2 r hr
          rw [List.getElem_map]
          simp only [claimOldOf, hr]
        have hgid : ∀ ke ∈ (schemaEntries d).map (claimOldOf ipam),
            (getId ke.2.metadata).isSome = true := by
          intro ke hke
          obtain ⟨i, hi2, hkei⟩ := List.mem_iff_getElem.mp hke
          have hi : i < (schemaEntries d).length := by
            rw [← hlen2]
            exact hi2
          obtain ⟨r, hpa, _, _, hgi⟩ := hIdx i hi
          rw [hget2 i hi hi2 r hpa] at hkei
          rw [← hkei]
          dsimp only [toF]
          rw [hgi]
          rfl
        obtain ⟨ids, hids⟩ := getIds_isSome _ hgid
        have hsorted : List.Sorted idLe ((schemaEntries d).map (claimOldOf ipam)) := by
          show List.Pairwise idLe _
          rw [List.pairwise_iff_getElem]
          intro i j hi2 hj2 hij
          have hi : i < (schemaEntries d).length := by rw [← hlen2]; exact hi2
          have hj : j < (schemaEntries d).length := by rw [← hlen2]; exact hj2
          obtain ⟨ri, hpai, _, _, hgii⟩ := hIdx i hi
          obtain ⟨rj, hpaj, _, _, hgij⟩ := hIdx j hj
          rw [hget2 i hi hi2 ri hpai, hget2 j hj hj2 rj hpaj]
          simp only [idLe]
          dsimp only [toF]
          rw [hgii, hgij]
          simp only [Option.getD_some]
          omega
        have hfe : filter_entries d ipam =
            some ((schemaEntries d).map (claimOldOf ipam), []) := by
          simp only [filter_entries, fePart_eq, hfilterS, hfilterN, List.map_nil]
          rw [hids]
          have hsort : sortOld ((schemaEntries d).map (claimOldOf ipam)) =
              (schemaEntries d).map (claimOldOf ipam) := by
            simp only [sortOld]
            exact List.Sorted.insertionSort_eq hsorted
          rw [hsort]
          rfl
        have hrel : List.Forall₂ KRel (assignIds 0 ((schemaEntries d).map claimNewOf))
            ((schemaEntries d).map (claimOldOf ipam)) := by
          rw [List.forall₂_iff_get]
          refine ⟨by rw [hlen1, hlen2], ?_⟩
          intro i h1 h2
          simp only [List.get_eq_getElem]
          have hi : i < (schemaEntries d).length := by rw [← hlen1]; exact h1
          obtain ⟨r, hpa, hpb, hmf, hgi⟩ := hIdx i hi
          rw [hget1 i hi h1, hget2 i hi h2 r hpa]
          refine ⟨rfl, rfl, rfl, rfl, rfl, rfl, ?_, ?_⟩
          · intro hsz
            dsimp only [toF] at hsz ⊢
            have hm2 := mdFinal_direct d _ _ _ hsz hmf
            dsimp only [toF] at hm2
            rw [hm2, mdU2_mdU2]
          · intro hsz pr
            dsimp only [toF] at hsz ⊢
            cases hsome : ((schemaEntries d)[i]).2.size with
            | none => exact absurd hsome hsz
            | some s' =>
              obtain ⟨pr0, hres, hm3⟩ := mdFinal_sized d _ _ _ s' (by
                dsimp only [toF]
                exact hsome) hmf
              dsimp only [toF] at hm3
              rw [hm3, mdU3_mdU3]
        have hrun2 : runFor d ⟨[], ipp0, convert_vlans d, []⟩
            ((schemaEntries d).map (claimOldOf ipam)) = some stA :=
          runFor_congr d _ _ _ hrel stA hrun
        subst h
        show alloc_ips d ipam = some ⟨ipam, stA.ipp, stA.vp, d.properties⟩
        simp only [alloc_ips, Option.bind_eq_bind, hipp, Option.some_bind]
        rw [hfe]
        simp only [Option.some_bind]
        rw [hrun2]
        simp only [Option.some_bind]
        rw [runFor_nil]
        simp only [Option.some_bind]
        rw [hmk]
        rfl

/-- The idempotence theorem applied to the concrete schema `dW`, whose
first run succeeds: the replayed run returns the same output. -/
theorem c1_idempotent_witness :
    alloc_ips dW (toPrior ((alloc_ips dW []).get (by decide))) =
      some ((alloc_ips dW []).get (by decide)) :=
  c1_idempotent dW _ (by decide) (Option.some_get _).symm
